import Mathlib

/-!
Shallow embedding of the SpinDry package (molecular data model, connected
component decomposition, nonbonded potentials and the Metropolis Monte Carlo
spinner), together with theorems checking the natural language specification
against the code.

Conventions of the embedding:
* Atom ids and bond ids are natural numbers, as in the source.
* Atomic coordinates are rows of a position matrix.  The source stores the
  matrix transposed internally and transposes it back in
  `get_position_matrix`; the embedding works directly with the row
  representation, which is the observable one.
* Floating point numbers are modelled as exact scalars.  Structures are
  parametric in the scalar type so that structural claims can be evaluated
  over `ℚ` while the spinner, which needs `Real.exp` and square roots, is
  instantiated at `ℝ`.
* The pseudo random generator owned by a `Spinner`
  (`np.random.default_rng(random_seed)` in the source) is modelled as a
  stream `ℕ → ℝ` of uniform draws together with an explicit consumption
  counter; `generator.choice` over a list is modelled as consuming one
  uniform draw `u` and returning the element at index `⌊u * len⌋`.
-/

deriving instance DecidableEq for Except

namespace SpinDry

/-- An atom: integer id, element symbol, and per element physical parameters
(covalent radius, and sigma and epsilon for the varying epsilon potential).
In the source the parameters are derived from the element symbol by a fixed
lookup table at construction; the embedding carries them as fields, so a
constructor call `Atom(id, element_string)` that rederives them from the same
element symbol is modelled by copying the fields. -/
structure Atom where
  id : ℕ
  element_string : String
  radius : ℚ
  sigma : ℚ
  epsilon : ℚ
  deriving DecidableEq, Repr

/-- A bond: integer id and the two endpoint atom ids. -/
structure Bond where
  id : ℕ
  atom1_id : ℕ
  atom2_id : ℕ
  deriving DecidableEq, Repr

/-- A 3-vector of scalars, one atomic position. -/
abbrev Vec3 (α : Type) := α × α × α

/-- Componentwise addition of 3-vectors. -/
def vadd {α : Type} [Add α] (u v : Vec3 α) : Vec3 α :=
  (u.1 + v.1, u.2.1 + v.2.1, u.2.2 + v.2.2)

/-- Componentwise subtraction of 3-vectors. -/
def vsub {α : Type} [Sub α] (u v : Vec3 α) : Vec3 α :=
  (u.1 - v.1, u.2.1 - v.2.1, u.2.2 - v.2.2)

/-- Scaling of a 3-vector by a scalar. -/
def vsmul {α : Type} [Mul α] (c : α) (v : Vec3 α) : Vec3 α :=
  (c * v.1, c * v.2.1, c * v.2.2)

/-- Sum of a list of 3-vectors. -/
def vsum {α : Type} [Add α] [Zero α] (l : List (Vec3 α)) : Vec3 α :=
  l.foldr vadd (0, 0, 0)

/-- A molecule: an ordered atom list, an ordered bond list and a position
matrix with one row per atom.  Mirrors `Molecule` of the source (the variant
taking atoms, bonds and a position matrix, as used by `SupraMolecule`). -/
structure Molecule (α : Type) where
  atoms : List Atom
  bonds : List Bond
  posmat : List (Vec3 α)
  deriving DecidableEq

namespace Molecule

/-- Source `Molecule.get_num_atoms`. -/
def get_num_atoms {α : Type} (m : Molecule α) : ℕ :=
  m.atoms.length

/-- Source `Molecule.get_position_matrix` (the internal transposition round
trips, so this is the stored row matrix). -/
def get_position_matrix {α : Type} (m : Molecule α) : List (Vec3 α) :=
  m.posmat

/-- Source `Molecule.with_position_matrix`: clone sharing atoms and bonds
with the given matrix as new coordinates. -/
def with_position_matrix {α : Type} (m : Molecule α) (pm : List (Vec3 α)) :
    Molecule α :=
  { m with posmat := pm }

/-- Source `Molecule.with_displacement`: clone with every position shifted
by the displacement vector. -/
def with_displacement {α : Type} [Add α] (m : Molecule α) (v : Vec3 α) :
    Molecule α :=
  { m with posmat := m.posmat.map (fun p => vadd p v) }

/-- Source `Molecule.get_centroid`: mean position over the atom id subset
(`none` selects all atoms, mirroring `atom_ids=None`), failing with a
`ValueError` when the subset is empty.  Column selection
`position_matrix[:, atom_ids]` is modelled by indexing rows with a default
for out of range ids (the claims only concern in range ids). -/
def get_centroid {α : Type} [Field α] (m : Molecule α)
    (atom_ids : Option (List ℕ)) : Except String (Vec3 α) :=
  let ids := match atom_ids with
    | none => List.range m.atoms.length
    | some l => l
  if ids.length = 0 then
    Except.error "atom_ids was of length 0."
  else
    Except.ok (vsmul (1 / (ids.length : α))
      (vsum (ids.map (fun i => m.posmat.getD i (0, 0, 0)))))

end Molecule

/-- Insertion of a value into a sorted list of naturals. -/
def insertSorted (x : ℕ) : List ℕ → List ℕ
  | [] => [x]
  | y :: ys => if x ≤ y then x :: y :: ys else y :: insertSorted x ys

/-- Ascending insertion sort on naturals; implements `sorted(c)` applied to
the (duplicate free) node set of a connected component. -/
def sortNat (l : List ℕ) : List ℕ :=
  l.foldr insertSorted []

/-- The node list of the connectivity graph built in
`SupraMolecule._define_components`: atom ids are added first, then any bond
endpoint ids not yet present (as `nx.Graph.add_edge` does), in first
occurrence order. -/
def graphNodes (atoms : List Atom) (bonds : List Bond) : List ℕ :=
  (atoms.map Atom.id ++
    bonds.flatMap (fun b => [b.atom1_id, b.atom2_id])).dedup

/-- One union step of the connected component computation: the classes
touching either endpoint are merged into a single class, all others are kept.
This implements the union of connected components induced by adding one
edge. -/
def classJoin (a b : ℕ) (classes : List (List ℕ)) : List (List ℕ) :=
  (classes.filter (fun c => decide (a ∈ c ∨ b ∈ c))).flatten
    :: classes.filter (fun c => ! decide (a ∈ c ∨ b ∈ c))

/-- The connected components of the graph with the atoms as nodes and the
bonds as edges, as lists of node ids: start from singleton classes and merge
along every bond.  The resulting family of classes equals the family of
connected components computed by `nx.connected_components` in the source
(the order in which the classes are produced may differ from the traversal
order of networkx; every claim checked below is independent of that
order). -/
def componentClasses (atoms : List Atom) (bonds : List Bond) :
    List (List ℕ) :=
  bonds.foldl (fun cs b => classJoin b.atom1_id b.atom2_id cs)
    ((graphNodes atoms bonds).map (fun n => [n]))

/-- Source `SupraMolecule._define_components`: one `Molecule` per connected
component, holding the atoms with ids in the component, the bonds fully
contained in it, and the position rows selected by the ascending sorted
component ids. -/
def defineComponents {α : Type} [Zero α] (atoms : List Atom) (bonds : List Bond)
    (posmat : List (Vec3 α)) : List (Molecule α) :=
  (componentClasses atoms bonds).map (fun c =>
    { atoms := atoms.filter (fun a => decide (a.id ∈ c))
      bonds := bonds.filter
        (fun b => decide (b.atom1_id ∈ c) && decide (b.atom2_id ∈ c))
      posmat := (sortNat c).map (fun i => posmat.getD i (0, 0, 0)) })

/-- A supramolecule: a molecule plus its cached component decomposition and
the optional conformer id and potential metadata. -/
structure SupraMolecule (α : Type) where
  atoms : List Atom
  bonds : List Bond
  posmat : List (Vec3 α)
  components : List (Molecule α)
  cid : Option ℕ
  potential : Option α
  deriving DecidableEq

/-- Source `SupraMolecule.__init__`: stores atoms, bonds and positions and
runs `_define_components`. -/
def mkSupraMolecule {α : Type} [Zero α] (atoms : List Atom) (bonds : List Bond)
    (posmat : List (Vec3 α)) (cid : Option ℕ) (potential : Option α) :
    SupraMolecule α :=
  ⟨atoms, bonds, posmat, defineComponents atoms bonds posmat, cid, potential⟩

namespace SupraMolecule

/-- Source `SupraMolecule.get_components` (the generator restarts at the
stored tuple on every call, so it is the stored list). -/
def get_components {α : Type} (s : SupraMolecule α) : List (Molecule α) :=
  s.components

/-- Source `SupraMolecule.with_position_matrix`: builds a clone through the
ordinary constructor (which recomputes the decomposition) and then overwrites
the recomputed components with the previously known components. -/
def with_position_matrix {α : Type} [Zero α] (s : SupraMolecule α)
    (pm : List (Vec3 α)) : SupraMolecule α :=
  let temp := mkSupraMolecule s.atoms s.bonds pm s.cid s.potential
  { temp with components := s.components }

end SupraMolecule

/-- Lookup in an association list modelling a Python dict with unique keys
(`atom_id_map[k]`). -/
def lookupAssoc (m : List (ℕ × ℕ)) (k : ℕ) : ℕ :=
  ((m.find? (fun p => p.1 == k)).map Prod.snd).getD 0

/-- Update of an association list modelling a Python dict assignment
`m[k] = v`: overwrite the entry holding the key in place if present, append
at the end otherwise (dict keys are unique, so replacing the first matching
entry is the dict semantics). -/
def updAssoc : List (ℕ × ℕ) → ℕ → ℕ → List (ℕ × ℕ)
  | [], k, v => [(k, v)]
  | p :: t, k, v => if p.1 = k then (k, v) :: t else p :: updAssoc t k v

/-- Python `max(m.values())` for the id maps (with default 0; the source only
evaluates it on nonempty maps). -/
def maxVals (m : List (ℕ × ℕ)) : ℕ :=
  (m.map Prod.snd).foldl max 0

/-- The fresh id assigned by `init_from_components`: `0` for the first entry,
`max(values) + 1` afterwards. -/
def nextId (m : List (ℕ × ℕ)) : ℕ :=
  if m.isEmpty then 0 else maxVals m + 1

/-- The accumulator of the `init_from_components` loop: output atoms, bonds
and position rows so far, plus the two id maps. -/
structure BuildState (α : Type) where
  atoms : List Atom
  bonds : List Bond
  posmat : List (Vec3 α)
  amap : List (ℕ × ℕ)
  bmap : List (ℕ × ℕ)

/-- One iteration of the atom loop of `init_from_components`: record the
fresh id in the atom id map and append a renumbered copy of the atom (in the
source a new `Atom` with the same element symbol, whose parameters are
rederived from that symbol, hence equal). -/
def addAtom {α : Type} (st : BuildState α) (a : Atom) : BuildState α :=
  let nid := nextId st.amap
  { st with
    amap := updAssoc st.amap a.id nid
    atoms := st.atoms ++ [{ a with id := nid }] }

/-- One iteration of the bond loop of `init_from_components`: record the
fresh bond id and append the bond with endpoints sent through the atom id
map. -/
def addBond {α : Type} (st : BuildState α) (b : Bond) : BuildState α :=
  let nid := nextId st.bmap
  { st with
    bmap := updAssoc st.bmap b.id nid
    bonds := st.bonds ++
      [⟨nid, lookupAssoc st.amap b.atom1_id, lookupAssoc st.amap b.atom2_id⟩] }

/-- One iteration of the outer component loop of `init_from_components`:
process the atoms, then the bonds, then append the position rows. -/
def addComponent {α : Type} (st : BuildState α) (c : Molecule α) :
    BuildState α :=
  let st1 := c.atoms.foldl addAtom st
  let st2 := c.bonds.foldl addBond st1
  { st2 with posmat := st2.posmat ++ c.posmat }

/-- Source `SupraMolecule.init_from_components`: concatenate and renumber the
components into one id space and record the input components verbatim as the
decomposition (no graph recomputation). -/
def init_from_components {α : Type} (components : List (Molecule α))
    (cid : Option ℕ) (potential : Option α) : SupraMolecule α :=
  let st := components.foldl addComponent ⟨[], [], [], [], []⟩
  ⟨st.atoms, st.bonds, st.posmat, components, cid, potential⟩

/-- Unordered pairs of list elements in the order produced by
`itertools.combinations(l, 2)`. -/
def pairsOf {β : Type} : List β → List (β × β)
  | [] => []
  | x :: xs => xs.map (fun y => (x, y)) ++ pairsOf xs

/-- Euclidean distance of two position rows, one entry of `cdist`. -/
noncomputable def dist3 (p q : Vec3 ℝ) : ℝ :=
  Real.sqrt ((p.1 - q.1) ^ 2 + (p.2.1 - q.2.1) ^ 2 + (p.2.2 - q.2.2) ^ 2)

/-- The Lennard-Jones shaped term `eps * ((sigma/d)^12 - (sigma/d)^6)` of
`_nonbond_potential`. -/
noncomputable def ljTerm (eps sigma d : ℝ) : ℝ :=
  eps * ((sigma / d) ^ 12 - (sigma / d) ^ 6)

/-- The contribution of one unordered component pair in
`SpdPotential._compute_nonbonded_potential`: the full cross sum of
Lennard-Jones terms with sigmas combined by arithmetic mean of the atomic
radii. -/
noncomputable def spdPairPotential (eps : ℝ) (a b : Molecule ℝ) : ℝ :=
  ((a.posmat.zip (a.atoms.map (fun x => (x.radius : ℝ)))).flatMap (fun pa =>
    (b.posmat.zip (b.atoms.map (fun x => (x.radius : ℝ)))).map (fun pb =>
      ljTerm eps ((pa.2 + pb.2) / 2) (dist3 pa.1 pb.1)))).sum

/-- Source `SpdPotential.compute_potential`: sum of the pair contributions
over `itertools.combinations` of the components. -/
noncomputable def spdComputePotential (eps : ℝ) (s : SupraMolecule ℝ) : ℝ :=
  ((pairsOf s.components).map (fun pr => spdPairPotential eps pr.1 pr.2)).sum

/-- The contribution of one unordered component pair in
`VaryingEpsilonPotential._compute_nonbonded_potential`: sigma by arithmetic
mean of the atomic sigmas, epsilon by geometric mean of the atomic
epsilons. -/
noncomputable def varyingPairPotential (a b : Molecule ℝ) : ℝ :=
  ((a.posmat.zip (a.atoms.map (fun x => ((x.sigma : ℝ), (x.epsilon : ℝ))))).flatMap
    (fun pa =>
      (b.posmat.zip (b.atoms.map (fun x => ((x.sigma : ℝ), (x.epsilon : ℝ))))).map
        (fun pb =>
          ljTerm (Real.sqrt (pa.2.2 * pb.2.2)) ((pa.2.1 + pb.2.1) / 2)
            (dist3 pa.1 pb.1)))).sum

/-- Source `VaryingEpsilonPotential.compute_potential`. -/
noncomputable def varyingComputePotential (s : SupraMolecule ℝ) : ℝ :=
  ((pairsOf s.components).map (fun pr => varyingPairPotential pr.1 pr.2)).sum

/-- Euclidean norm of a 3-vector (`np.linalg.norm`). -/
noncomputable def vnorm (v : Vec3 ℝ) : ℝ :=
  Real.sqrt (v.1 ^ 2 + v.2.1 ^ 2 + v.2.2 ^ 2)

/-- Componentwise division of a 3-vector by a scalar. -/
noncomputable def vdiv (v : Vec3 ℝ) (c : ℝ) : Vec3 ℝ :=
  (v.1 / c, v.2.1 / c, v.2.2 / c)

/-- Cross product of two 3-vectors. -/
def crossProd {α : Type} [Mul α] [Sub α] (u v : Vec3 α) : Vec3 α :=
  (u.2.1 * v.2.2 - u.2.2 * v.2.1,
   u.2.2 * v.1 - u.1 * v.2.2,
   u.1 * v.2.1 - u.2.1 * v.1)

/-- Modelled from the spec: the file defining
`rotation_matrix_arbitrary_axis` is not part of the source tree, so the
standard arbitrary axis rotation (Rodrigues formula about the normalized
axis), named by the spec, is used: the rotation matrix applied to a vector
`v`. -/
noncomputable def rodrigues (angle : ℝ) (axis v : Vec3 ℝ) : Vec3 ℝ :=
  let a := vdiv axis (vnorm axis)
  vadd
    (vadd (vsmul (Real.cos angle) v)
      (vsmul (Real.sin angle) (crossProd a v)))
    (vsmul ((1 - Real.cos angle) *
      (a.1 * v.1 + a.2.1 * v.2.1 + a.2.2 * v.2.2)) a)

/-- Source `Spinner._rotate_atoms_by_angle`: shift the origin of rotation to
`origin`, rotate, and shift back. -/
noncomputable def rotateAtomsByAngle (m : Molecule ℝ) (angle : ℝ)
    (axis origin : Vec3 ℝ) : Molecule ℝ :=
  m.with_position_matrix
    (m.posmat.map (fun p => vadd (rodrigues angle axis (vsub p origin)) origin))

/-- The centroid over all atoms as a total value (the source calls
`get_centroid()` only on nonempty components, where it never fails). -/
noncomputable def centroidOf (m : Molecule ℝ) : Vec3 ℝ :=
  match m.get_centroid none with
  | Except.ok v => v
  | Except.error _ => (0, 0, 0)

/-- Model of `generator.choice(l)`: consume one uniform draw `u` and return
the element at index `⌊u * len(l)⌋`. -/
noncomputable def choiceModel (u : ℝ) (l : List ℕ) : ℕ :=
  l.getD ⌊u * (l.length : ℝ)⌋₊ 0

/-- The movable component index set determined at the start of
`Spinner._run_step`: the explicitly supplied indices, if any; otherwise all
indices when all component sizes are equal, and the indices of the components
of non-maximal size when they are not. -/
def movableIndices {α : Type} (comps : List (Molecule α))
    (movable : Option (List ℕ)) : List ℕ :=
  match movable with
  | some m => (List.range comps.length).filter (fun i => decide (i ∈ m))
  | none =>
    let sizes := comps.map Molecule.get_num_atoms
    let maxSize := sizes.foldl max 0
    if 1 < sizes.dedup.length then
      (List.range comps.length).filter (fun i => decide (sizes.getD i 0 ≠ maxSize))
    else
      List.range comps.length

/-- The Monte Carlo engine configuration: the constructor arguments of
`Spinner` with the owned pseudo random generator modelled as the stream of
uniform draws it produces. -/
structure Spinner where
  step_size : ℝ
  rotation_step_size : ℝ
  num_conformers : ℕ
  max_attempts : ℕ
  potential_function : SupraMolecule ℝ → ℝ
  beta : ℝ
  draws : ℕ → ℝ

/-- Source `Spinner.__init__` with an integer seed: every field is stored
and the generator is seeded from `random_seed` alone, modelled by a fixed
seed-to-stream map `g` standing for `np.random.default_rng`. -/
def mkSpinner (g : ℤ → ℕ → ℝ) (random_seed : ℤ)
    (step_size rotation_step_size : ℝ) (num_conformers max_attempts : ℕ)
    (potential_function : SupraMolecule ℝ → ℝ) (beta : ℝ) : Spinner :=
  ⟨step_size, rotation_step_size, num_conformers, max_attempts,
    potential_function, beta, g random_seed⟩

/-- Source `Spinner._test_move` (Metropolis acceptance): accept downhill
moves unconditionally; otherwise compare `exp(-beta * (new - curr))` against
one fresh uniform draw, which is consumed only in this branch.  Returns the
decision and the updated draw counter. -/
noncomputable def test_move (beta curr_pot new_pot : ℝ) (draws : ℕ → ℝ)
    (k : ℕ) : Bool × ℕ :=
  if new_pot < curr_pot then (true, k)
  else (decide (Real.exp (-beta * (new_pot - curr_pot)) > draws k), k + 1)

/-- Source `Spinner._run_step`, with the draw consumption made explicit: the
component choice consumes draw `k`; the translation scalar draw `k+1`; the
translation direction draws `k+2 .. k+4`; the rotation scalar draw `k+5`; the
rotation axis draws `k+6 .. k+8` (divided by the norm of the already
normalized translation direction, reproducing the copy paste quirk of the
source).  Returns the reassembled supramolecule, its potential, and the
updated draw counter. -/
noncomputable def runStep (sp : Spinner) (s : SupraMolecule ℝ)
    (movable : Option (List ℕ)) (k : ℕ) : SupraMolecule ℝ × ℝ × ℕ :=
  let comps := s.get_components
  let movIdx := movableIndices comps movable
  let targId := choiceModel (sp.draws k) movIdx
  let randT := (sp.draws (k + 1) - 1 / 2) * 2
  let rawVec : Vec3 ℝ := (sp.draws (k + 2), sp.draws (k + 3), sp.draws (k + 4))
  let randVector := vdiv rawVec (vnorm rawVec)
  let translation := vsmul (sp.step_size * randT) randVector
  let targ0 := comps.getD targId ⟨[], [], []⟩
  let targ1 := targ0.with_displacement translation
  let randR := (sp.draws (k + 5) - 1 / 2) * 2
  let angle := sp.rotation_step_size * randR
  let rawAxis : Vec3 ℝ := (sp.draws (k + 6), sp.draws (k + 7), sp.draws (k + 8))
  let axis := vdiv rawAxis (vnorm randVector)
  let targ2 := rotateAtomsByAngle targ1 angle axis (centroidOf targ1)
  let comps2 := comps.set targId targ2
  let s2 := init_from_components comps2 none none
  (s2, sp.potential_function s2, k + 9)

/-- The body of the `for step in range(1, max_attempts)` loop of
`Spinner.get_conformers`, as fuel based recursion.  Arguments after the fuel:
the current supramolecule, the current potential, the conformer id counter,
the number of accepted conformers so far (`len(cids_passed)`), and the draw
counter.  Accepted proposals are yielded as a fresh `SupraMolecule` built
from the original atoms and bonds with the proposed positions; after each
iteration the loop stops when the accepted count equals `num_conformers`. -/
noncomputable def getConformersLoop (sp : Spinner) (atoms : List Atom)
    (bonds : List Bond) (movable : Option (List ℕ)) :
    ℕ → SupraMolecule ℝ → ℝ → ℕ → ℕ → ℕ → List (SupraMolecule ℝ)
  | 0, _, _, _, _, _ => []
  | fuel + 1, s, pot, cid, nacc, k =>
    let r := runStep sp s movable k
    let t := test_move sp.beta pot r.2.1 sp.draws r.2.2
    if t.1 then
      let s2 := mkSupraMolecule atoms bonds r.1.posmat (some (cid + 1))
        (some r.2.1)
      if nacc + 1 = sp.num_conformers then [s2]
      else s2 :: getConformersLoop sp atoms bonds movable fuel s2 r.2.1
        (cid + 1) (nacc + 1) t.2
    else
      if nacc = sp.num_conformers then []
      else getConformersLoop sp atoms bonds movable fuel s pot cid nacc t.2

/-- Source `Spinner.get_conformers`: compute the potential of the start,
unconditionally yield it tagged with conformer id 0 and that potential, then
run at most `max_attempts - 1` proposal steps. -/
noncomputable def getConformers (sp : Spinner) (s : SupraMolecule ℝ)
    (movable : Option (List ℕ)) : List (SupraMolecule ℝ) :=
  let pot := sp.potential_function s
  mkSupraMolecule s.atoms s.bonds s.posmat (some 0) (some pot)
    :: getConformersLoop sp s.atoms s.bonds movable (sp.max_attempts - 1) s
      pot 0 0 0

/-- Source `Spinner.get_final_conformer`: drain the sequence and keep the
last yielded conformer. -/
noncomputable def getFinalConformer (sp : Spinner) (s : SupraMolecule ℝ)
    (movable : Option (List ℕ)) : Option (SupraMolecule ℝ) :=
  (getConformers sp s movable).getLast?

/-- The combinations list of a list with fewer than two elements is empty. -/
theorem pairsOf_eq_nil_of_short {β : Type} (l : List β) (h : l.length < 2) :
    pairsOf l = [] := by
  match l, h with
  | [], _ => rfl
  | [x], _ => rfl

/-- C1: Metropolis acceptance in `Spinner._test_move`: a proposal with lower
potential is accepted unconditionally with no draw consumed; otherwise one
fresh uniform draw is consumed and the proposal is accepted exactly when
`exp(-beta * (new - curr))` exceeds that draw. -/
theorem test_move_metropolis (beta curr_pot new_pot : ℝ) (draws : ℕ → ℝ)
    (k : ℕ) :
    (new_pot < curr_pot → test_move beta curr_pot new_pot draws k = (true, k)) ∧
    (¬ new_pot < curr_pot →
      ((test_move beta curr_pot new_pot draws k).1 = true ↔
        Real.exp (-beta * (new_pot - curr_pot)) > draws k) ∧
      (test_move beta curr_pot new_pot draws k).2 = k + 1) := by
  constructor
  · intro h
    simp [test_move, if_pos h]
  · intro h
    refine ⟨?_, ?_⟩ <;> simp [test_move, if_neg h]

/-- Witness for `test_move_metropolis` at a concrete downhill input. -/
theorem test_move_metropolis_witness :
    test_move 2 1 0 (fun _ => 1 / 2) 0 = (true, 0) :=
  (test_move_metropolis 2 1 0 (fun _ => 1 / 2) 0).1 one_pos

/-- C6: `SupraMolecule.with_position_matrix` returns a clone whose position
matrix is the supplied one while the component partition is the previously
known partition of the receiver (not resliced from the new matrix), and
atoms, bonds, conformer id and stored potential are unchanged. -/
theorem with_position_matrix_frame {α : Type} [Zero α] (s : SupraMolecule α)
    (pm : List (Vec3 α)) :
    (s.with_position_matrix pm).posmat = pm ∧
    (s.with_position_matrix pm).components = s.components ∧
    (s.with_position_matrix pm).atoms = s.atoms ∧
    (s.with_position_matrix pm).bonds = s.bonds ∧
    (s.with_position_matrix pm).cid = s.cid ∧
    (s.with_position_matrix pm).potential = s.potential :=
  ⟨rfl, rfl, rfl, rfl, rfl, rfl⟩

/-- C7: with a fixed integer seed, two independent runs of
`get_final_conformer` on freshly constructed spinners with the same
parameters produce identical final conformers (hence identical final
positions and potential): the generator state is a function of the seed
alone and each spinner owns its generator. -/
theorem get_final_conformer_deterministic (g : ℤ → ℕ → ℝ) (random_seed : ℤ)
    (step_size rotation_step_size beta : ℝ) (num_conformers max_attempts : ℕ)
    (potential_function : SupraMolecule ℝ → ℝ) (s : SupraMolecule ℝ)
    (movable : Option (List ℕ)) (sp1 sp2 : Spinner)
    (h1 : sp1 = mkSpinner g random_seed step_size rotation_step_size
      num_conformers max_attempts potential_function beta)
    (h2 : sp2 = mkSpinner g random_seed step_size rotation_step_size
      num_conformers max_attempts potential_function beta) :
    getFinalConformer sp1 s movable = getFinalConformer sp2 s movable := by
  rw [h1, h2]

/-- Witness for `get_final_conformer_deterministic` at a concrete seed and
starting supramolecule. -/
theorem get_final_conformer_deterministic_witness :
    getFinalConformer
      (mkSpinner (fun _ _ => 0) 1000 1 1 2 3 (fun _ => 0) 2)
      (mkSupraMolecule [⟨0, "H", 1, 1, 1⟩] [] [((0 : ℝ), 0, 0)] none none)
      none =
    getFinalConformer
      (mkSpinner (fun _ _ => 0) 1000 1 1 2 3 (fun _ => 0) 2)
      (mkSupraMolecule [⟨0, "H", 1, 1, 1⟩] [] [((0 : ℝ), 0, 0)] none none)
      none :=
  get_final_conformer_deterministic (fun _ _ => 0) 1000 1 1 2 2 3
    (fun _ => 0) _ none _ _ rfl rfl

/-- C10: both potentials vanish on a supramolecule with fewer than two
components, because the sum ranges over the empty list of unordered
component pairs. -/
theorem compute_potential_single_component (eps : ℝ) (s : SupraMolecule ℝ)
    (h : s.components.length < 2) :
    spdComputePotential eps s = 0 ∧ varyingComputePotential s = 0 := by
  have hp : pairsOf s.components = [] := pairsOf_eq_nil_of_short _ h
  constructor <;> simp [spdComputePotential, varyingComputePotential, hp]

/-- Witness for `compute_potential_single_component` on a concrete one
component supramolecule. -/
theorem compute_potential_single_component_witness :
    spdComputePotential 5
      (mkSupraMolecule [⟨0, "H", 1, 1, 1⟩] [] [((0 : ℝ), 0, 0)] none none)
      = 0 ∧
    varyingComputePotential
      (mkSupraMolecule [⟨0, "H", 1, 1, 1⟩] [] [((0 : ℝ), 0, 0)] none none)
      = 0 :=
  compute_potential_single_component 5 _ (by decide)

/-- A two atom component used in concrete instances. -/
def twoAtomCompA : Molecule ℚ :=
  ⟨[⟨0, "C", 1, 1, 1⟩, ⟨1, "C", 1, 1, 1⟩], [], [(0, 0, 0), (1, 0, 0)]⟩

/-- A second two atom component used in concrete instances. -/
def twoAtomCompB : Molecule ℚ :=
  ⟨[⟨2, "C", 1, 1, 1⟩, ⟨3, "C", 1, 1, 1⟩], [], [(2, 0, 0), (3, 0, 0)]⟩

/-- A one atom component used in concrete instances. -/
def oneAtomComp : Molecule ℚ :=
  ⟨[⟨4, "C", 1, 1, 1⟩], [], [(4, 0, 0)]⟩

/-- Dedup of a nonempty constant list is the singleton. -/
theorem dedup_replicate_succ (x : ℕ) :
    ∀ n, (List.replicate (n + 1) x).dedup = [x]
  | 0 => by simp
  | n + 1 => by
    rw [List.replicate_succ, List.dedup_cons_of_mem (by simp)]
    exact dedup_replicate_succ x n

/-- The emptiness test `len(set(l)) > 1` of the source fails exactly when
all entries of `l` are equal. -/
theorem dedup_length_le_one_iff (l : List ℕ) :
    l.dedup.length ≤ 1 ↔ ∀ a ∈ l, ∀ b ∈ l, a = b := by
  constructor
  · intro h a ha b hb
    have ha2 : a ∈ l.dedup := List.mem_dedup.mpr ha
    have hb2 : b ∈ l.dedup := List.mem_dedup.mpr hb
    cases hd : l.dedup with
    | nil =>
      rw [hd] at ha2
      exact absurd ha2 (List.not_mem_nil a)
    | cons x t =>
      rw [hd] at h ha2 hb2
      cases t with
      | nil =>
        have hax : a = x := by simpa using ha2
        have hbx : b = x := by simpa using hb2
        rw [hax, hbx]
      | cons y t2 => simp [List.length_cons] at h
  · intro h
    rcases l with _ | ⟨x, t⟩
    · simp
    · have hl : x :: t = List.replicate (x :: t).length x := by
        apply (List.eq_replicate_length).mpr
        intro b hb
        exact h b hb x (List.mem_cons_self x t)
      rw [hl]
      simp [List.length_cons, dedup_replicate_succ]

/-- C5 (amended): when `movable_components` is not supplied, the movable set
is all component indices if all component atom counts are equal, and exactly
the indices of the components of non-maximal atom count otherwise (every
component of maximal count is excluded, which is the single largest component
precisely when the maximum is attained once); the movable set is nonempty
whenever there are components, and the randomly chosen index always belongs
to it. -/
theorem movable_indices_spec {α : Type} (comps : List (Molecule α)) :
    ((¬ ∀ a ∈ comps.map Molecule.get_num_atoms,
        ∀ b ∈ comps.map Molecule.get_num_atoms, a = b) →
      ∀ i, i ∈ movableIndices comps none ↔
        i < comps.length ∧
          (comps.map Molecule.get_num_atoms).getD i 0 ≠
            (comps.map Molecule.get_num_atoms).foldl max 0) ∧
    ((∀ a ∈ comps.map Molecule.get_num_atoms,
        ∀ b ∈ comps.map Molecule.get_num_atoms, a = b) →
      movableIndices comps none = List.range comps.length) ∧
    (comps ≠ [] → movableIndices comps none ≠ []) ∧
    (∀ u : ℝ, 0 ≤ u → u < 1 → ∀ movable : Option (List ℕ),
      movableIndices comps movable ≠ [] →
      choiceModel u (movableIndices comps movable) ∈
        movableIndices comps movable) := by
  have hchoice : ∀ u : ℝ, 0 ≤ u → u < 1 → ∀ l : List ℕ, l ≠ [] →
      choiceModel u l ∈ l := by
    intro u hu0 hu1 l hl
    have hlen : 0 < l.length := List.length_pos.mpr hl
    have hfl : ⌊u * (l.length : ℝ)⌋₊ < l.length := by
      rw [Nat.floor_lt (by positivity)]
      calc u * (l.length : ℝ) < 1 * (l.length : ℝ) := by
            apply mul_lt_mul_of_pos_right hu1
            exact_mod_cast hlen
        _ = (l.length : ℝ) := one_mul _
    rw [choiceModel, List.getD_eq_getElem l 0 hfl]
    exact List.getElem_mem hfl
  refine ⟨?_, ?_, ?_, fun u h0 h1 movable hne => hchoice u h0 h1 _ hne⟩
  · intro hne i
    have hlt : 1 < (comps.map Molecule.get_num_atoms).dedup.length := by
      by_contra hc
      push_neg at hc
      exact hne ((dedup_length_le_one_iff _).mp hc)
    simp only [movableIndices, if_pos hlt, List.mem_filter, List.mem_range,
      decide_eq_true_eq]
  · intro hall
    have hle : (comps.map Molecule.get_num_atoms).dedup.length ≤ 1 :=
      (dedup_length_le_one_iff _).mpr hall
    simp only [movableIndices, if_neg (by omega : ¬ 1 <
      (comps.map Molecule.get_num_atoms).dedup.length)]
  · intro hne
    by_cases hall : ∀ a ∈ comps.map Molecule.get_num_atoms,
        ∀ b ∈ comps.map Molecule.get_num_atoms, a = b
    · have hle : (comps.map Molecule.get_num_atoms).dedup.length ≤ 1 :=
        (dedup_length_le_one_iff _).mpr hall
      simp only [movableIndices, if_neg (by omega : ¬ 1 <
        (comps.map Molecule.get_num_atoms).dedup.length)]
      simpa [List.range_eq_nil] using hne
    · have hlt : 1 < (comps.map Molecule.get_num_atoms).dedup.length := by
        by_contra hc
        push_neg at hc
        exact hall ((dedup_length_le_one_iff _).mp hc)
      push_neg at hall
      obtain ⟨a, ha, b, hb, hab⟩ := hall
      set sizes := comps.map Molecule.get_num_atoms with hsz
      set maxSize := sizes.foldl max 0 with hms
      have hone : a ≠ maxSize ∨ b ≠ maxSize := by
        by_contra hc
        push_neg at hc
        exact hab (hc.1.trans hc.2.symm)
      have hwit : ∃ c ∈ sizes, c ≠ maxSize := by
        rcases hone with h | h
        · exact ⟨a, ha, h⟩
        · exact ⟨b, hb, h⟩
      obtain ⟨c, hc, hcm⟩ := hwit
      obtain ⟨i, hi, hgi⟩ := List.getElem_of_mem hc
      have hmem : i ∈ movableIndices comps none := by
        simp only [movableIndices, if_pos hlt, List.mem_filter,
          List.mem_range, decide_eq_true_eq]
        constructor
        · have := hi
          rwa [hsz, List.length_map] at this
        · rw [List.getD_eq_getElem sizes 0 hi, hgi]
          exact hcm
      exact List.ne_nil_of_mem hmem

/-- Witness for `movable_indices_spec` on three components with atom counts
2, 2, 1: index 2 is movable because its count differs from the maximum. -/
theorem movable_indices_spec_witness :
    2 ∈ movableIndices [twoAtomCompA, twoAtomCompB, oneAtomComp] none ↔
      2 < [twoAtomCompA, twoAtomCompB, oneAtomComp].length ∧
        ([twoAtomCompA, twoAtomCompB,
          oneAtomComp].map Molecule.get_num_atoms).getD 2 0 ≠
          ([twoAtomCompA, twoAtomCompB,
            oneAtomComp].map Molecule.get_num_atoms).foldl max 0 :=
  (movable_indices_spec [twoAtomCompA, twoAtomCompB, oneAtomComp]).1
    (by decide) 2

/-- Counterexample to C5 as stated: with component atom counts 2, 2, 1
(largest size tied), the computed movable set is `[2]`, so it is not the
case that only a single largest component is excluded with every other
component movable. -/
theorem movable_indices_claim_counterexample :
    movableIndices [twoAtomCompA, twoAtomCompB, oneAtomComp] none = [2] ∧
    ¬ ∃ j : Fin 3, ∀ i : Fin 3, i ≠ j →
        (i : ℕ) ∈ movableIndices [twoAtomCompA, twoAtomCompB, oneAtomComp]
          none := by
  decide

/-- Scaling twice is scaling by the product. -/
theorem vsmul_vsmul {α : Type} [Field α] (a b : α) (v : Vec3 α) :
    vsmul a (vsmul b v) = vsmul (a * b) v := by
  simp [vsmul, mul_assoc]

/-- The six atom molecule of the centroid example scenario of the spec. -/
def centroidExampleMol : Molecule ℚ :=
  ⟨[⟨0, "C", 1, 1, 1⟩, ⟨1, "C", 1, 1, 1⟩, ⟨2, "C", 1, 1, 1⟩,
    ⟨3, "C", 1, 1, 1⟩, ⟨4, "C", 1, 1, 1⟩, ⟨5, "C", 1, 1, 1⟩], [],
   [(0, 1, 0), (1, 1, 0), (-1, 1, 0), (0, 10, 0), (1, 10, 0), (-1, 10, 0)]⟩

/-- C9: `get_centroid` fails with the invalid argument error exactly when the
selected atom id subset is empty; on a nonempty subset it returns the
arithmetic mean of the selected positions (stated multiplicatively: the
result scaled by the subset size is the sum of the selected rows); with no
subset supplied it selects all atoms; and on the example molecule the
centroid over all atoms is `(0, 11/2, 0)`. -/
theorem get_centroid_spec (m : Molecule ℚ) (ids : List ℕ)
    (hin : ∀ i ∈ ids, i < m.posmat.length) :
    ((∃ e, m.get_centroid (some ids) = Except.error e) ↔ ids = []) ∧
    (∀ v, m.get_centroid (some ids) = Except.ok v →
      vsmul ((ids.length : ℚ)) v =
        vsum (ids.map (fun i => m.posmat.getD i (0, 0, 0)))) ∧
    (m.get_centroid none = m.get_centroid (some (List.range m.atoms.length))) ∧
    (centroidExampleMol.get_centroid none = Except.ok (0, 11 / 2, 0)) := by
  refine ⟨⟨?_, ?_⟩, ?_, rfl, ?_⟩
  · rintro ⟨e, he⟩
    by_contra hne
    have hlen : ids.length ≠ 0 := fun h => hne (List.length_eq_zero.mp h)
    simp [Molecule.get_centroid, hlen] at he
  · rintro rfl
    exact ⟨_, rfl⟩
  · intro v hv
    by_cases hlen : ids.length = 0
    · simp [Molecule.get_centroid, hlen] at hv
    · simp only [Molecule.get_centroid, if_neg hlen] at hv
      injection hv with hv2
      rw [← hv2, vsmul_vsmul, mul_one_div,
        div_self (Nat.cast_ne_zero.mpr hlen : ((ids.length : ℚ)) ≠ 0)]
      simp [vsmul]
  · have h6 : List.range centroidExampleMol.atoms.length = [0, 1, 2, 3, 4, 5] := by
      rfl
    simp only [Molecule.get_centroid, h6]
    norm_num [centroidExampleMol, vsum, vadd, vsmul, List.getD_cons_zero,
      List.getD_cons_succ]

/-- Witness for `get_centroid_spec` at a concrete nonempty id subset. -/
theorem get_centroid_spec_witness :
    (∃ e, centroidExampleMol.get_centroid (some [0]) = Except.error e) ↔
      ([0] : List ℕ) = [] :=
  (get_centroid_spec centroidExampleMol [0] (by decide)).1

/-- The atom id list of a molecule, the observable id set of a component. -/
def molAtomIds {α : Type} (m : Molecule α) : List ℕ :=
  m.atoms.map Atom.id

/-- The component list produced when a supramolecule is built from atoms,
bonds and a position matrix. -/
def componentsOf {α : Type} [Zero α] (atoms : List Atom) (bonds : List Bond)
    (posmat : List (Vec3 α)) : List (Molecule α) :=
  (mkSupraMolecule atoms bonds posmat none none).get_components

/-- Flattening singletons gives back the list. -/
theorem flatten_map_singleton (l : List ℕ) :
    (l.map (fun n => [n])).flatten = l := by
  induction l with
  | nil => rfl
  | cons x t ih => simp [ih]

/-- One merge step permutes the flattened class family. -/
theorem classJoin_flatten_perm (a b : ℕ) (cs : List (List ℕ)) :
    (classJoin a b cs).flatten.Perm cs.flatten := by
  have hsplit : (classJoin a b cs).flatten =
      ((cs.filter (fun c => decide (a ∈ c ∨ b ∈ c))) ++
        cs.filter (fun c => ! decide (a ∈ c ∨ b ∈ c))).flatten := by
    simp [classJoin]
  rw [hsplit]
  exact (List.filter_append_perm _ cs).flatten

/-- Folding merge steps over any bond list permutes the flattened family. -/
theorem foldl_classJoin_flatten_perm (bs : List Bond) :
    ∀ cs : List (List ℕ),
      ((bs.foldl (fun cs b => classJoin b.atom1_id b.atom2_id cs) cs).flatten).Perm
        cs.flatten := by
  induction bs with
  | nil => intro cs; exact List.Perm.refl _
  | cons e rest ih =>
    intro cs
    exact (ih (classJoin e.atom1_id e.atom2_id cs)).trans
      (classJoin_flatten_perm _ _ cs)

/-- The flattened component classes are a permutation of the graph nodes. -/
theorem componentClasses_flatten_perm (atoms : List Atom) (bonds : List Bond) :
    ((componentClasses atoms bonds).flatten).Perm (graphNodes atoms bonds) := by
  have h := foldl_classJoin_flatten_perm bonds
    ((graphNodes atoms bonds).map (fun n => [n]))
  rwa [flatten_map_singleton] at h

/-- The flattened component classes have no duplicate node. -/
theorem componentClasses_flatten_nodup (atoms : List Atom) (bonds : List Bond) :
    ((componentClasses atoms bonds).flatten).Nodup :=
  (componentClasses_flatten_perm atoms bonds).nodup_iff.mpr (List.nodup_dedup _)

/-- The component classes are pairwise disjoint node sets. -/
theorem componentClasses_pairwise_disjoint (atoms : List Atom)
    (bonds : List Bond) :
    (componentClasses atoms bonds).Pairwise List.Disjoint :=
  (List.nodup_flatten.mp (componentClasses_flatten_nodup atoms bonds)).2

/-- Disjointness of two classes at distinct positions, in either order. -/
theorem componentClasses_get_disjoint {atoms : List Atom} {bonds : List Bond}
    {i j : ℕ} (hi : i < (componentClasses atoms bonds).length)
    (hj : j < (componentClasses atoms bonds).length) (hij : i ≠ j) {x : ℕ}
    (hxi : x ∈ (componentClasses atoms bonds).get ⟨i, hi⟩) :
    x ∉ (componentClasses atoms bonds).get ⟨j, hj⟩ := by
  have hpw := componentClasses_pairwise_disjoint atoms bonds
  rcases Nat.lt_or_ge i j with h | h
  · exact (List.pairwise_iff_get.mp hpw ⟨i, hi⟩ ⟨j, hj⟩ h) hxi
  · intro hxj
    have hji : j < i := lt_of_le_of_ne h (Ne.symm hij)
    exact (List.pairwise_iff_get.mp hpw ⟨j, hj⟩ ⟨i, hi⟩ hji) hxj hxi

/-- A node lies in at most one component class. -/
theorem componentClasses_unique_class {atoms : List Atom} {bonds : List Bond}
    {c1 c2 : List ℕ} {x : ℕ} (h1 : c1 ∈ componentClasses atoms bonds)
    (h2 : c2 ∈ componentClasses atoms bonds) (hx1 : x ∈ c1) (hx2 : x ∈ c2) :
    c1 = c2 := by
  obtain ⟨⟨i, hi⟩, hgi⟩ := List.get_of_mem h1
  obtain ⟨⟨j, hj⟩, hgj⟩ := List.get_of_mem h2
  by_cases hij : i = j
  · subst hij
    rw [← hgi, ← hgj]
  · exact absurd (by rwa [hgj]) (componentClasses_get_disjoint hi hj hij (by rwa [hgi]))

/-- Classes holding two given nodes together survive a merge step. -/
theorem classJoin_together {x y a b : ℕ} {cs : List (List ℕ)}
    (h : ∃ c ∈ cs, x ∈ c ∧ y ∈ c) :
    ∃ c ∈ classJoin a b cs, x ∈ c ∧ y ∈ c := by
  obtain ⟨c, hc, hx, hy⟩ := h
  by_cases hp : a ∈ c ∨ b ∈ c
  · refine ⟨(cs.filter (fun c => decide (a ∈ c ∨ b ∈ c))).flatten,
      List.mem_cons_self _ _, ?_, ?_⟩
    · exact List.mem_flatten_of_mem (List.mem_filter.mpr ⟨hc, by simpa⟩) hx
    · exact List.mem_flatten_of_mem (List.mem_filter.mpr ⟨hc, by simpa⟩) hy
  · refine ⟨c, List.mem_cons_of_mem _ (List.mem_filter.mpr ⟨hc, ?_⟩), hx, hy⟩
    simpa using hp

/-- After a merge step along an edge present in the family, both endpoints
share a class. -/
theorem classJoin_endpoints {a b : ℕ} (cs : List (List ℕ))
    (ha : a ∈ cs.flatten) (hb : b ∈ cs.flatten) :
    ∃ c ∈ classJoin a b cs, a ∈ c ∧ b ∈ c := by
  obtain ⟨ca, hca, hac⟩ := List.mem_flatten.mp ha
  obtain ⟨cb, hcb, hbc⟩ := List.mem_flatten.mp hb
  refine ⟨(cs.filter (fun c => decide (a ∈ c ∨ b ∈ c))).flatten,
    List.mem_cons_self _ _, ?_, ?_⟩
  · exact List.mem_flatten_of_mem (List.mem_filter.mpr ⟨hca, by simp [hac]⟩) hac
  · exact List.mem_flatten_of_mem (List.mem_filter.mpr ⟨hcb, by simp [hbc]⟩) hbc

/-- Co-location of two nodes is preserved by folding merge steps. -/
theorem foldl_classJoin_together (bs : List Bond) {x y : ℕ} :
    ∀ cs : List (List ℕ), (∃ c ∈ cs, x ∈ c ∧ y ∈ c) →
      ∃ c ∈ bs.foldl (fun cs b => classJoin b.atom1_id b.atom2_id cs) cs,
        x ∈ c ∧ y ∈ c := by
  induction bs with
  | nil => intro cs h; exact h
  | cons e rest ih =>
    intro cs h
    exact ih (classJoin e.atom1_id e.atom2_id cs) (classJoin_together h)

/-- Every processed bond ends with both endpoints in one common class. -/
theorem foldl_classJoin_bond (bs : List Bond) :
    ∀ cs : List (List ℕ),
      (∀ b ∈ bs, b.atom1_id ∈ cs.flatten ∧ b.atom2_id ∈ cs.flatten) →
      ∀ b ∈ bs,
        ∃ c ∈ bs.foldl (fun cs b => classJoin b.atom1_id b.atom2_id cs) cs,
          b.atom1_id ∈ c ∧ b.atom2_id ∈ c := by
  induction bs with
  | nil =>
    intro cs _ b hb
    exact absurd hb (List.not_mem_nil b)
  | cons e rest ih =>
    intro cs h b hb
    rcases List.mem_cons.mp hb with rfl | hb2
    · exact foldl_classJoin_together rest _
        (classJoin_endpoints cs (h b (List.mem_cons_self _ _)).1
          (h b (List.mem_cons_self _ _)).2)
    · refine ih (classJoin e.atom1_id e.atom2_id cs) ?_ b hb2
      intro b2 hb2m
      have h2 := h b2 (List.mem_cons_of_mem _ hb2m)
      exact ⟨(classJoin_flatten_perm _ _ cs).mem_iff.mpr h2.1,
        (classJoin_flatten_perm _ _ cs).mem_iff.mpr h2.2⟩

/-- A singleton class of a node touched by no bond survives the whole fold. -/
theorem foldl_classJoin_isolated (bs : List Bond) (x : ℕ)
    (hx : ∀ b ∈ bs, b.atom1_id ≠ x ∧ b.atom2_id ≠ x) :
    ∀ cs : List (List ℕ), [x] ∈ cs →
      [x] ∈ bs.foldl (fun cs b => classJoin b.atom1_id b.atom2_id cs) cs := by
  induction bs with
  | nil => intro cs h; exact h
  | cons e rest ih =>
    intro cs h
    have he := hx e (List.mem_cons_self _ _)
    refine ih (fun b hb => hx b (List.mem_cons_of_mem _ hb)) _ ?_
    refine List.mem_cons_of_mem _ (List.mem_filter.mpr ⟨h, ?_⟩)
    simp [List.mem_singleton, he.1, he.2]

/-- Atom ids are nodes of the connectivity graph. -/
theorem atom_id_mem_graphNodes {atoms : List Atom} {bonds : List Bond}
    {a : Atom} (ha : a ∈ atoms) : a.id ∈ graphNodes atoms bonds :=
  List.mem_dedup.mpr (List.mem_append_left _ (List.mem_map_of_mem Atom.id ha))

/-- Bond endpoints are nodes of the connectivity graph. -/
theorem bond_ends_mem_graphNodes {atoms : List Atom} {bonds : List Bond}
    {b : Bond} (hb : b ∈ bonds) :
    b.atom1_id ∈ graphNodes atoms bonds ∧
      b.atom2_id ∈ graphNodes atoms bonds := by
  constructor <;>
    exact List.mem_dedup.mpr (List.mem_append_right _
      (List.mem_flatMap.mpr ⟨b, hb, by simp⟩))

/-- Atom id membership in a component produced by `defineComponents`: the id
is in the defining class and belongs to some atom of the molecule. -/
theorem mem_filter_atomIds {atoms : List Atom} {c : List ℕ} {x : ℕ} :
    x ∈ (atoms.filter (fun a => decide (a.id ∈ c))).map Atom.id ↔
      x ∈ c ∧ ∃ a ∈ atoms, a.id = x := by
  constructor
  · intro h
    obtain ⟨a, haf, hax⟩ := List.mem_map.mp h
    obtain ⟨hmem, hdec⟩ := List.mem_filter.mp haf
    subst hax
    exact ⟨by simpa using hdec, a, hmem, rfl⟩
  · rintro ⟨hxc, a, ha, rfl⟩
    exact List.mem_map.mpr ⟨a, List.mem_filter.mpr ⟨ha, by simpa⟩, rfl⟩

/-- C2: the components of a supramolecule built from atoms, bonds and a
position matrix partition the atom id set along bond graph connectivity:
every atom id lies in some component; component atom ids are atom ids of the
molecule; components at distinct positions have disjoint atom id sets; an
atom touched by no bond forms a singleton component; and no bond has its two
endpoints in components at distinct positions. -/
theorem get_components_partition {α : Type} [Zero α] (atoms : List Atom)
    (bonds : List Bond) (posmat : List (Vec3 α)) :
    (∀ a ∈ atoms, ∃ c ∈ componentsOf atoms bonds posmat,
      a.id ∈ molAtomIds c) ∧
    (∀ c ∈ componentsOf atoms bonds posmat, ∀ x ∈ molAtomIds c,
      x ∈ atoms.map Atom.id) ∧
    (∀ i j (hi : i < (componentsOf atoms bonds posmat).length)
        (hj : j < (componentsOf atoms bonds posmat).length), i ≠ j →
      ∀ x ∈ molAtomIds ((componentsOf atoms bonds posmat).get ⟨i, hi⟩),
        x ∉ molAtomIds ((componentsOf atoms bonds posmat).get ⟨j, hj⟩)) ∧
    (∀ a ∈ atoms, (∀ b ∈ bonds, b.atom1_id ≠ a.id ∧ b.atom2_id ≠ a.id) →
      ∀ c ∈ componentsOf atoms bonds posmat, a.id ∈ molAtomIds c →
        ∀ x ∈ molAtomIds c, x = a.id) ∧
    (∀ b ∈ bonds,
      ∀ i j (hi : i < (componentsOf atoms bonds posmat).length)
        (hj : j < (componentsOf atoms bonds posmat).length),
      b.atom1_id ∈ molAtomIds ((componentsOf atoms bonds posmat).get ⟨i, hi⟩) →
      b.atom2_id ∈ molAtomIds ((componentsOf atoms bonds posmat).get ⟨j, hj⟩) →
      i = j) := by
  have hflat : ∀ x : ℕ,
      x ∈ (componentClasses atoms bonds).flatten ↔
        x ∈ graphNodes atoms bonds :=
    fun _ => (componentClasses_flatten_perm atoms bonds).mem_iff
  have hlen : (componentsOf atoms bonds posmat).length =
      (componentClasses atoms bonds).length := List.length_map _ _
  have hget : ∀ (i : ℕ) (hi : i < (componentsOf atoms bonds posmat).length),
      ∃ hi2 : i < (componentClasses atoms bonds).length,
        molAtomIds ((componentsOf atoms bonds posmat).get ⟨i, hi⟩) =
          (atoms.filter (fun a =>
            decide (a.id ∈ (componentClasses atoms bonds).get ⟨i, hi2⟩))).map
            Atom.id := by
    intro i hi
    refine ⟨hlen ▸ hi, ?_⟩
    simp [componentsOf, mkSupraMolecule, SupraMolecule.get_components,
      defineComponents, molAtomIds, List.get_eq_getElem, List.getElem_map]
  refine ⟨?_, ?_, ?_, ?_, ?_⟩
  · intro a ha
    have h1 : a.id ∈ (componentClasses atoms bonds).flatten :=
      (hflat _).mpr (atom_id_mem_graphNodes ha)
    obtain ⟨cl, hcl, hmem⟩ := List.mem_flatten.mp h1
    exact ⟨_, List.mem_map_of_mem _ hcl,
      mem_filter_atomIds.mpr ⟨hmem, a, ha, rfl⟩⟩
  · intro c hc x hx
    obtain ⟨cl, hcl, rfl⟩ := List.mem_map.mp hc
    obtain ⟨_, a, ha, rfl⟩ := mem_filter_atomIds.mp hx
    exact List.mem_map_of_mem _ ha
  · intro i j hi hj hij x hxi hxj
    obtain ⟨hi2, hmi⟩ := hget i hi
    obtain ⟨hj2, hmj⟩ := hget j hj
    rw [hmi] at hxi
    rw [hmj] at hxj
    exact componentClasses_get_disjoint hi2 hj2 hij
      (mem_filter_atomIds.mp hxi).1 (mem_filter_atomIds.mp hxj).1
  · intro a ha hiso c hc hidc x hx
    have hsing : [a.id] ∈ componentClasses atoms bonds :=
      foldl_classJoin_isolated bonds a.id hiso _
        (List.mem_map_of_mem _ (atom_id_mem_graphNodes ha))
    obtain ⟨cl, hcl, rfl⟩ := List.mem_map.mp hc
    have hmem : a.id ∈ cl := (mem_filter_atomIds.mp hidc).1
    have hcl_eq : cl = [a.id] :=
      componentClasses_unique_class hcl hsing hmem (List.mem_singleton_self _)
    have hx2 : x ∈ cl := (mem_filter_atomIds.mp hx).1
    rw [hcl_eq] at hx2
    simpa using hx2
  · intro b hb i j hi hj hx1 hx2
    have hflag : ∀ b2 ∈ bonds,
        b2.atom1_id ∈
          ((graphNodes atoms bonds).map (fun n => [n])).flatten ∧
        b2.atom2_id ∈
          ((graphNodes atoms bonds).map (fun n => [n])).flatten := by
      intro b2 hb2
      rw [flatten_map_singleton]
      exact bond_ends_mem_graphNodes hb2
    obtain ⟨cstar, hcstar, h1, h2⟩ := foldl_classJoin_bond bonds _ hflag b hb
    obtain ⟨⟨k, hk⟩, hgk⟩ := List.get_of_mem hcstar
    obtain ⟨hi2, hmi⟩ := hget i hi
    obtain ⟨hj2, hmj⟩ := hget j hj
    rw [hmi] at hx1
    rw [hmj] at hx2
    have hik : i = k := by
      by_contra hik
      exact componentClasses_get_disjoint hi2 hk hik
        (mem_filter_atomIds.mp hx1).1 (hgk ▸ h1)
    have hjk : j = k := by
      by_contra hjk
      exact componentClasses_get_disjoint hj2 hk hjk
        (mem_filter_atomIds.mp hx2).1 (hgk ▸ h2)
    rw [hik, hjk]

/-- The atoms of the concrete partition instance: ids 0, 1, 2. -/
def partitionExAtoms : List Atom :=
  [⟨0, "C", 1, 1, 1⟩, ⟨1, "C", 1, 1, 1⟩, ⟨2, "C", 1, 1, 1⟩]

/-- One bond joining atoms 1 and 2, leaving atom 0 isolated. -/
def partitionExBonds : List Bond :=
  [⟨0, 1, 2⟩]

/-- Positions for the concrete partition instance. -/
def partitionExPos : List (Vec3 ℚ) :=
  [(0, 0, 0), (1, 0, 0), (2, 0, 0)]

/-- Witness for `get_components_partition`: in the concrete instance the
isolated atom 0 forms a singleton component. -/
theorem get_components_partition_witness :
    ∀ c ∈ componentsOf partitionExAtoms partitionExBonds partitionExPos,
      (⟨0, "C", 1, 1, 1⟩ : Atom).id ∈ molAtomIds c →
        ∀ x ∈ molAtomIds c, x = (⟨0, "C", 1, 1, 1⟩ : Atom).id :=
  (get_components_partition partitionExAtoms partitionExBonds
    partitionExPos).2.2.2.1 ⟨0, "C", 1, 1, 1⟩ (by decide) (by decide)

/-- Head unfolding of the association list lookup. -/
theorem lookupAssoc_cons (p : ℕ × ℕ) (t : List (ℕ × ℕ)) (x : ℕ) :
    lookupAssoc (p :: t) x = if p.1 = x then p.2 else lookupAssoc t x := by
  by_cases h : p.1 = x
  · rw [lookupAssoc, List.find?_cons_of_pos _ (by simpa using h), if_pos h]
    rfl
  · rw [lookupAssoc, List.find?_cons_of_neg _ (by simpa using h), if_neg h]
    rfl

/-- Looking up the key just assigned returns the assigned value. -/
theorem lookupAssoc_updAssoc_self (m : List (ℕ × ℕ)) (k v : ℕ) :
    lookupAssoc (updAssoc m k v) k = v := by
  induction m with
  | nil => simp [updAssoc, lookupAssoc_cons]
  | cons p t ih =>
    by_cases hp : p.1 = k
    · simp [updAssoc, hp, lookupAssoc_cons]
    · simpa [updAssoc, hp, lookupAssoc_cons] using ih

/-- Assignment to one key leaves lookups of other keys unchanged. -/
theorem lookupAssoc_updAssoc_ne (m : List (ℕ × ℕ)) {k x : ℕ} (v : ℕ)
    (hx : x ≠ k) : lookupAssoc (updAssoc m k v) x = lookupAssoc m x := by
  induction m with
  | nil => simp [updAssoc, lookupAssoc_cons, lookupAssoc, Ne.symm hx]
  | cons p t ih =>
    by_cases hp : p.1 = k
    · rw [updAssoc]
      simp only [hp, if_pos]
      rw [lookupAssoc_cons, lookupAssoc_cons, if_neg (by simpa using Ne.symm hx),
        if_neg (hp ▸ (by simpa using Ne.symm hx))]
    · rw [updAssoc]
      simp only [hp, if_neg, ite_false]
      rw [lookupAssoc_cons, lookupAssoc_cons, ih]

/-- A value in the updated map is the assigned value or an old value. -/
theorem mem_vals_updAssoc {m : List (ℕ × ℕ)} {k v w : ℕ}
    (hw : w ∈ (updAssoc m k v).map Prod.snd) :
    w = v ∨ w ∈ m.map Prod.snd := by
  induction m with
  | nil => simpa [updAssoc] using hw
  | cons p t ih =>
    by_cases hp : p.1 = k
    · simp [updAssoc, hp] at hw
      rcases hw with h | h
      · exact Or.inl h
      · exact Or.inr (by simp [h])
    · simp [updAssoc, hp] at hw
      rcases hw with h | h
      · exact Or.inr (by simp [h])
      · rcases ih (by simpa using h) with h2 | h2
        · exact Or.inl h2
        · exact Or.inr (by simp; exact Or.inr (by simpa using h2))

/-- The assigned value is a value of the updated map. -/
theorem self_mem_vals_updAssoc (m : List (ℕ × ℕ)) (k v : ℕ) :
    v ∈ (updAssoc m k v).map Prod.snd := by
  induction m with
  | nil => simp [updAssoc]
  | cons p t ih =>
    by_cases hp : p.1 = k
    · simp [updAssoc, hp]
    · simp [updAssoc, hp]
      exact Or.inr (by simpa using ih)

/-- The updated map is never empty. -/
theorem updAssoc_ne_nil (m : List (ℕ × ℕ)) (k v : ℕ) :
    updAssoc m k v ≠ [] := by
  cases m with
  | nil => simp [updAssoc]
  | cons p t =>
    by_cases hp : p.1 = k <;> simp [updAssoc, hp]

/-- Upper bound for a fold of `max`. -/
theorem foldl_max_le {l : List ℕ} {n : ℕ} (h : ∀ w ∈ l, w ≤ n) :
    ∀ acc, acc ≤ n → l.foldl max acc ≤ n := by
  induction l with
  | nil => intro acc ha; simpa using ha
  | cons x t ih =>
    intro acc ha
    exact ih (fun w hw => h w (List.mem_cons_of_mem _ hw)) (max acc x)
      (max_le ha (h x (List.mem_cons_self _ _)))

/-- The initial accumulator bounds a fold of `max` from below. -/
theorem foldl_max_init_le (l : List ℕ) : ∀ acc, acc ≤ l.foldl max acc := by
  induction l with
  | nil => intro acc; simp
  | cons y t ih => intro acc; exact le_trans (le_max_left _ _) (ih _)

/-- Every member bounds a fold of `max` from below. -/
theorem le_foldl_max {l : List ℕ} {x : ℕ} (hx : x ∈ l) :
    ∀ acc, x ≤ l.foldl max acc := by
  induction l with
  | nil => exact absurd hx (List.not_mem_nil x)
  | cons y t ih =>
    intro acc
    rcases List.mem_cons.mp hx with rfl | hx2
    · exact le_trans (le_max_right _ _) (foldl_max_init_le t _)
    · exact ih hx2 _

/-- After assigning a value bounding all previous values, the maximum of the
values is the assigned value. -/
theorem maxVals_updAssoc {m : List (ℕ × ℕ)} {k v : ℕ}
    (h : ∀ w ∈ m.map Prod.snd, w ≤ v) :
    maxVals (updAssoc m k v) = v := by
  refine le_antisymm ?_ ?_
  · apply foldl_max_le ?_ 0 (Nat.zero_le _)
    intro w hw
    rcases mem_vals_updAssoc hw with rfl | hw2
    · exact le_rfl
    · exact h w hw2
  · exact le_foldl_max (self_mem_vals_updAssoc m k v) 0

/-- The fresh id counter advances by one over an assignment of the current
fresh id. -/
theorem nextId_updAssoc {m : List (ℕ × ℕ)} {k v : ℕ}
    (h : ∀ w ∈ m.map Prod.snd, w ≤ v) :
    nextId (updAssoc m k v) = v + 1 := by
  rw [nextId, if_neg (by simpa [List.isEmpty_iff] using updAssoc_ne_nil m k v),
    maxVals_updAssoc h]

/-- Renumbering of an atom list with consecutive ids from a start value;
describes the fresh contiguous id space of `init_from_components`. -/
def renumberFrom (n : ℕ) : List Atom → List Atom
  | [] => []
  | a :: rest => { a with id := n } :: renumberFrom (n + 1) rest

/-- The ids of a renumbered atom list are the consecutive range. -/
theorem renumberFrom_map_id (l : List Atom) :
    ∀ n, (renumberFrom n l).map Atom.id = List.range' n l.length := by
  induction l with
  | nil => intro n; rfl
  | cons a rest ih =>
    intro n
    simp [renumberFrom, List.range'_succ, ih (n + 1)]

/-- Renumbering preserves the element symbols in order. -/
theorem renumberFrom_map_element (l : List Atom) :
    ∀ n, (renumberFrom n l).map Atom.element_string =
      l.map Atom.element_string := by
  induction l with
  | nil => intro n; rfl
  | cons a rest ih =>
    intro n
    simp [renumberFrom, ih (n + 1)]

/-- Length of a renumbered atom list. -/
theorem renumberFrom_length (l : List Atom) :
    ∀ n, (renumberFrom n l).length = l.length := by
  induction l with
  | nil => intro n; rfl
  | cons a rest ih =>
    intro n
    simp [renumberFrom, ih (n + 1)]

/-- Renumbering splits over append with the shifted start. -/
theorem renumberFrom_append (l1 l2 : List Atom) :
    ∀ n, renumberFrom n (l1 ++ l2) =
      renumberFrom n l1 ++ renumberFrom (n + l1.length) l2 := by
  induction l1 with
  | nil => intro n; simp [renumberFrom]
  | cons a rest ih =>
    intro n
    simp [renumberFrom, ih (n + 1)]
    rw [Nat.add_comm rest.length 1, ← Nat.add_assoc]

/-- The atom loop of `init_from_components`: atoms are appended renumbered
consecutively from the current count, the fresh id counter tracks the count,
all map values stay below the count, and the other fields are untouched. -/
theorem foldl_addAtom_spec {α : Type} (as : List Atom) :
    ∀ st : BuildState α,
      nextId st.amap = st.atoms.length →
      (∀ v ∈ st.amap.map Prod.snd, v < st.atoms.length) →
      (as.foldl addAtom st).atoms =
          st.atoms ++ renumberFrom st.atoms.length as ∧
      nextId (as.foldl addAtom st).amap = st.atoms.length + as.length ∧
      (∀ v ∈ (as.foldl addAtom st).amap.map Prod.snd,
        v < st.atoms.length + as.length) ∧
      (as.foldl addAtom st).bonds = st.bonds ∧
      (as.foldl addAtom st).posmat = st.posmat ∧
      (as.foldl addAtom st).bmap = st.bmap := by
  induction as with
  | nil =>
    intro st h2 h3
    refine ⟨by simp [renumberFrom], by simpa using h2, ?_, rfl, rfl, rfl⟩
    intro v hv
    simpa using h3 v hv
  | cons a rest ih =>
    intro st h2 h3
    have hstep : addAtom st a =
        { st with
          amap := updAssoc st.amap a.id st.atoms.length
          atoms := st.atoms ++ [{ a with id := st.atoms.length }] } := by
      simp [addAtom, h2]
    have hlen : (addAtom st a).atoms.length = st.atoms.length + 1 := by
      rw [hstep]; simp
    have h2' : nextId (addAtom st a).amap = (addAtom st a).atoms.length := by
      rw [hstep, hlen] at *
      simpa using nextId_updAssoc
        (fun w hw => Nat.le_of_lt (h3 w hw))
    have h3' : ∀ v ∈ (addAtom st a).amap.map Prod.snd,
        v < (addAtom st a).atoms.length := by
      rw [hstep, hlen] at *
      intro v hv
      rcases mem_vals_updAssoc hv with rfl | hv2
      · omega
      · exact Nat.lt_succ_of_lt (h3 v hv2)
    obtain ⟨c1, c2, c3, c4, c5, c6⟩ := ih (addAtom st a) h2' h3'
    rw [List.foldl_cons]
    refine ⟨?_, ?_, ?_, ?_, ?_, ?_⟩
    · rw [c1, hstep]
      simp [renumberFrom]
    · rw [c2, hlen]
      simp [List.length_cons]
      omega
    · intro v hv
      have := c3 v hv
      rw [hlen] at this
      simpa [List.length_cons] using by omega
    · rw [c4, hstep]
    · rw [c5, hstep]
    · rw [c6, hstep]

/-- Ids not occurring in the processed atom list keep their lookup value. -/
theorem foldl_addAtom_lookup_nomod {α : Type} (as : List Atom) {x : ℕ}
    (hx : x ∉ as.map Atom.id) :
    ∀ st : BuildState α,
      lookupAssoc ((as.foldl addAtom st).amap) x = lookupAssoc st.amap x := by
  induction as with
  | nil => intro st; rfl
  | cons a rest ih =>
    intro st
    have hxa : x ≠ a.id := by
      intro h
      exact hx (by simp [h])
    have hxr : x ∉ rest.map Atom.id := fun h => hx (by simp [h])
    rw [List.foldl_cons, ih hxr]
    simp [addAtom, lookupAssoc_updAssoc_ne _ _ hxa]

/-- After processing an atom list with duplicate free ids, the id of the
atom at position `t` is mapped to the base count plus `t`. -/
theorem foldl_addAtom_lookup {α : Type} (as : List Atom) :
    ∀ st : BuildState α,
      nextId st.amap = st.atoms.length →
      (∀ v ∈ st.amap.map Prod.snd, v < st.atoms.length) →
      (as.map Atom.id).Nodup →
      ∀ t (ht : t < as.length),
        lookupAssoc ((as.foldl addAtom st).amap) ((as.get ⟨t, ht⟩).id) =
          st.atoms.length + t := by
  induction as with
  | nil =>
    intro st _ _ _ t ht
    exact absurd ht (by simp)
  | cons a rest ih =>
    intro st h2 h3 hnd t ht
    have hstep : addAtom st a =
        { st with
          amap := updAssoc st.amap a.id st.atoms.length
          atoms := st.atoms ++ [{ a with id := st.atoms.length }] } := by
      simp [addAtom, h2]
    have hlen : (addAtom st a).atoms.length = st.atoms.length + 1 := by
      rw [hstep]; simp
    have h2' : nextId (addAtom st a).amap = (addAtom st a).atoms.length := by
      rw [hstep, hlen] at *
      simpa using nextId_updAssoc (fun w hw => Nat.le_of_lt (h3 w hw))
    have h3' : ∀ v ∈ (addAtom st a).amap.map Prod.snd,
        v < (addAtom st a).atoms.length := by
      rw [hstep, hlen] at *
      intro v hv
      rcases mem_vals_updAssoc hv with rfl | hv2
      · omega
      · exact Nat.lt_succ_of_lt (h3 v hv2)
    have hndc : a.id ∉ rest.map Atom.id ∧ (rest.map Atom.id).Nodup := by
      rw [List.map_cons] at hnd
      exact List.nodup_cons.mp hnd
    cases t with
    | zero =>
      show lookupAssoc ((rest.foldl addAtom (addAtom st a)).amap) a.id =
        st.atoms.length + 0
      rw [foldl_addAtom_lookup_nomod rest hndc.1]
      rw [hstep]
      simpa using lookupAssoc_updAssoc_self st.amap a.id st.atoms.length
    | succ t2 =>
      have hnd2 : (rest.map Atom.id).Nodup := hndc.2
      have ht2 : t2 < rest.length := by
        simpa [Nat.succ_lt_succ_iff] using ht
      rw [List.foldl_cons]
      have := ih (addAtom st a) h2' h3' hnd2 t2 ht2
      rw [hlen] at this
      show lookupAssoc ((rest.foldl addAtom (addAtom st a)).amap)
        ((rest.get ⟨t2, ht2⟩).id) = st.atoms.length + (t2 + 1)
      rw [this]
      omega

/-- The bond loop of `init_from_components`: atoms, atom id map and
positions are untouched, and the endpoint pairs of the appended bonds are
the lookups of the original endpoints through the current atom id map. -/
theorem foldl_addBond_spec {α : Type} (bs : List Bond) :
    ∀ st : BuildState α,
      (bs.foldl addBond st).atoms = st.atoms ∧
      (bs.foldl addBond st).amap = st.amap ∧
      (bs.foldl addBond st).posmat = st.posmat ∧
      (bs.foldl addBond st).bonds.map (fun b => (b.atom1_id, b.atom2_id)) =
        st.bonds.map (fun b => (b.atom1_id, b.atom2_id)) ++
          bs.map (fun b =>
            (lookupAssoc st.amap b.atom1_id,
             lookupAssoc st.amap b.atom2_id)) := by
  induction bs with
  | nil => intro st; simp
  | cons b rest ih =>
    intro st
    obtain ⟨ha, hm, hp, hb⟩ := ih (addBond st b)
    refine ⟨by simpa [addBond] using ha, by simpa [addBond] using hm,
      by simpa [addBond] using hp, ?_⟩
    rw [List.foldl_cons, hb]
    simp [addBond]

/-- The fields of the build state after one component: atoms appended
renumbered, atom id map as left by the atom loop with its invariants,
positions appended. -/
theorem addComponent_fields {α : Type} (st : BuildState α) (c : Molecule α)
    (h2 : nextId st.amap = st.atoms.length)
    (h3 : ∀ v ∈ st.amap.map Prod.snd, v < st.atoms.length) :
    (addComponent st c).atoms =
        st.atoms ++ renumberFrom st.atoms.length c.atoms ∧
    (addComponent st c).amap = (c.atoms.foldl addAtom st).amap ∧
    nextId (addComponent st c).amap = (addComponent st c).atoms.length ∧
    (∀ v ∈ (addComponent st c).amap.map Prod.snd,
      v < (addComponent st c).atoms.length) ∧
    (addComponent st c).posmat = st.posmat ++ c.posmat ∧
    (addComponent st c).atoms.length = st.atoms.length + c.atoms.length := by
  obtain ⟨a1, a2, a3, a4, a5, a6⟩ := foldl_addAtom_spec c.atoms st h2 h3
  obtain ⟨b1, b2, b3, b4⟩ :=
    foldl_addBond_spec c.bonds (c.atoms.foldl addAtom st)
  have hat : (addComponent st c).atoms =
      st.atoms ++ renumberFrom st.atoms.length c.atoms := by
    show ((c.bonds.foldl addBond (c.atoms.foldl addAtom st))).atoms = _
    rw [b1, a1]
  have ham : (addComponent st c).amap = (c.atoms.foldl addAtom st).amap := by
    show ((c.bonds.foldl addBond (c.atoms.foldl addAtom st))).amap = _
    rw [b2]
  have hlen : (addComponent st c).atoms.length =
      st.atoms.length + c.atoms.length := by
    rw [hat]
    simp [renumberFrom_length]
  refine ⟨hat, ham, ?_, ?_, ?_, hlen⟩
  · rw [ham, hlen, a2]
  · intro v hv
    rw [ham] at hv
    have := a3 v hv
    rw [hlen]
    simpa using this
  · show ((c.bonds.foldl addBond (c.atoms.foldl addAtom st))).posmat ++
      c.posmat = _
    rw [b3, a5]

/-- The outer component loop of `init_from_components`: atoms appended
renumbered consecutively, positions stacked, id map invariants kept. -/
theorem foldl_addComponent_spec {α : Type} (comps : List (Molecule α)) :
    ∀ st : BuildState α,
      nextId st.amap = st.atoms.length →
      (∀ v ∈ st.amap.map Prod.snd, v < st.atoms.length) →
      (comps.foldl addComponent st).atoms =
          st.atoms ++
            renumberFrom st.atoms.length (comps.flatMap Molecule.atoms) ∧
      (comps.foldl addComponent st).posmat =
          st.posmat ++ comps.flatMap Molecule.posmat := by
  induction comps with
  | nil =>
    intro st h2 h3
    constructor <;> simp [renumberFrom]
  | cons c rest ih =>
    intro st h2 h3
    obtain ⟨hat, ham, h2', h3', hpos, hlen⟩ := addComponent_fields st c h2 h3
    obtain ⟨r1, r2⟩ := ih (addComponent st c) h2' h3'
    rw [List.foldl_cons] at *
    constructor
    · rw [r1, hlen, hat, List.append_assoc, ← renumberFrom_append]
      simp
    · rw [r2, hpos, List.append_assoc]
      simp

/-- The positional endpoint remapping described by the spec for
`init_from_components`: within each component every endpoint id becomes the
running atom offset plus the index of that id in the component's atom id
list. -/
def remapSpec {α : Type} : ℕ → List (Molecule α) → List (ℕ × ℕ)
  | _, [] => []
  | n, c :: rest =>
    c.bonds.map (fun b =>
      (n + (molAtomIds c).indexOf b.atom1_id,
       n + (molAtomIds c).indexOf b.atom2_id)) ++
      remapSpec (n + c.atoms.length) rest

/-- The outer component loop remaps every bond of every well formed
component positionally: offset of the component plus index of the endpoint
in the component's atom list. -/
theorem foldl_addComponent_bonds {α : Type} (comps : List (Molecule α)) :
    ∀ st : BuildState α,
      nextId st.amap = st.atoms.length →
      (∀ v ∈ st.amap.map Prod.snd, v < st.atoms.length) →
      (∀ c ∈ comps, (molAtomIds c).Nodup ∧
        ∀ b ∈ c.bonds,
          b.atom1_id ∈ molAtomIds c ∧ b.atom2_id ∈ molAtomIds c) →
      (comps.foldl addComponent st).bonds.map
          (fun b => (b.atom1_id, b.atom2_id)) =
        st.bonds.map (fun b => (b.atom1_id, b.atom2_id)) ++
          remapSpec st.atoms.length comps := by
  induction comps with
  | nil =>
    intro st _ _ _
    simp [remapSpec]
  | cons c rest ih =>
    intro st h2 h3 hwf
    obtain ⟨hat, ham, h2', h3', hpos, hlen⟩ := addComponent_fields st c h2 h3
    obtain ⟨b1, b2, b3, b4⟩ :=
      foldl_addBond_spec c.bonds (c.atoms.foldl addAtom st)
    have hwfc := hwf c (List.mem_cons_self _ _)
    have hlook : ∀ y ∈ molAtomIds c,
        lookupAssoc ((c.atoms.foldl addAtom st).amap) y =
          st.atoms.length + (molAtomIds c).indexOf y := by
      intro y hy
      have hidx : (molAtomIds c).indexOf y < (molAtomIds c).length :=
        List.indexOf_lt_length.mpr hy
      have hidx2 : (molAtomIds c).indexOf y < c.atoms.length := by
        simpa [molAtomIds] using hidx
      have hlem := foldl_addAtom_lookup c.atoms st h2 h3 hwfc.1 _ hidx2
      have hgety : (c.atoms.get ⟨(molAtomIds c).indexOf y, hidx2⟩).id = y := by
        have h1 := List.indexOf_get (a := y) (l := molAtomIds c) hidx
        have h2m : (c.atoms.get ⟨(molAtomIds c).indexOf y, hidx2⟩).id =
            (molAtomIds c).get ⟨(molAtomIds c).indexOf y, hidx⟩ := by
          rw [List.get_eq_getElem, List.get_eq_getElem]
          exact (List.getElem_map _).symm
        exact h2m.trans h1
      rw [hgety] at hlem
      exact hlem
    have hbonds1 : (addComponent st c).bonds.map
        (fun b => (b.atom1_id, b.atom2_id)) =
        st.bonds.map (fun b => (b.atom1_id, b.atom2_id)) ++
          c.bonds.map (fun b =>
            (st.atoms.length + (molAtomIds c).indexOf b.atom1_id,
             st.atoms.length + (molAtomIds c).indexOf b.atom2_id)) := by
      have ha4 : (c.atoms.foldl addAtom st).bonds = st.bonds :=
        (foldl_addAtom_spec c.atoms st h2 h3).2.2.2.1
      show ((c.bonds.foldl addBond (c.atoms.foldl addAtom st))).bonds.map _ = _
      rw [b4, ha4]
      congr 1
      apply List.map_congr_left
      intro b hb
      have hmem := hwfc.2 b hb
      rw [hlook _ hmem.1, hlook _ hmem.2]
    rw [List.foldl_cons,
      ih (addComponent st c) h2' h3'
        (fun c2 hc2 => hwf c2 (List.mem_cons_of_mem _ hc2)),
      hbonds1, hlen]
    show _ = _ ++ (c.bonds.map _ ++ remapSpec (st.atoms.length + c.atoms.length) rest)
    rw [List.append_assoc]

/-- The first single atom component of the `init_from_components` example
scenario, atom id 0. -/
def singleAtomH : Molecule ℚ :=
  ⟨[⟨0, "H", 1, 1, 1⟩], [], [(1, 2, 3)]⟩

/-- The second single atom component of the example scenario, also atom
id 0, with a distinct position row. -/
def singleAtomF : Molecule ℚ :=
  ⟨[⟨0, "F", 1, 1, 1⟩], [], [(4, 5, 6)]⟩

/-- A two atom component with one bond, with non contiguous original ids. -/
def bondedComp : Molecule ℚ :=
  ⟨[⟨5, "C", 1, 1, 1⟩, ⟨7, "C", 1, 1, 1⟩], [⟨0, 5, 7⟩],
   [(0, 0, 0), (1, 1, 1)]⟩

/-- C4: `init_from_components` concatenates the components' atoms in input
order under the fresh contiguous id space 0, 1, 2, ... (each new id is the
previous maximum assigned id plus one), preserves the element symbols,
stacks the position rows in the same order, records the input component list
verbatim, carries the metadata, and remaps each bond of every well formed
component positionally through the same atom id mapping (component offset
plus index of the endpoint in the component's atom list).  In particular two
single atom components whose atoms both have id 0 yield atoms with ids 0 and
1 and the two position rows stacked in order. -/
theorem init_from_components_spec {α : Type} (comps : List (Molecule α))
    (cid : Option ℕ) (pot : Option α) :
    ((init_from_components comps cid pot).atoms.map Atom.id =
      List.range (comps.flatMap Molecule.atoms).length) ∧
    ((init_from_components comps cid pot).atoms.map Atom.element_string =
      (comps.flatMap Molecule.atoms).map Atom.element_string) ∧
    ((init_from_components comps cid pot).posmat =
      comps.flatMap Molecule.posmat) ∧
    ((init_from_components comps cid pot).components = comps) ∧
    ((init_from_components comps cid pot).cid = cid) ∧
    ((init_from_components comps cid pot).potential = pot) ∧
    ((∀ c ∈ comps, (molAtomIds c).Nodup ∧
        ∀ b ∈ c.bonds,
          b.atom1_id ∈ molAtomIds c ∧ b.atom2_id ∈ molAtomIds c) →
      (init_from_components comps cid pot).bonds.map
          (fun b => (b.atom1_id, b.atom2_id)) = remapSpec 0 comps) ∧
    ((init_from_components [singleAtomH, singleAtomF] none none).atoms.map
        Atom.id = [0, 1] ∧
      (init_from_components [singleAtomH, singleAtomF] none none).posmat =
        [(1, 2, 3), (4, 5, 6)]) := by
  have h20 : nextId (⟨[], [], [], [], []⟩ : BuildState α).amap =
      (⟨[], [], [], [], []⟩ : BuildState α).atoms.length := rfl
  have h30 : ∀ v ∈ (⟨[], [], [], [], []⟩ : BuildState α).amap.map Prod.snd,
      v < (⟨[], [], [], [], []⟩ : BuildState α).atoms.length := by
    simp
  obtain ⟨r1, r2⟩ := foldl_addComponent_spec comps
    (⟨[], [], [], [], []⟩ : BuildState α) h20 h30
  refine ⟨?_, ?_, ?_, rfl, rfl, rfl, ?_, by decide, by decide⟩
  · show ((comps.foldl addComponent
      (⟨[], [], [], [], []⟩ : BuildState α)).atoms).map Atom.id = _
    rw [r1]
    simp [renumberFrom_map_id, List.range_eq_range']
  · show ((comps.foldl addComponent
      (⟨[], [], [], [], []⟩ : BuildState α)).atoms).map Atom.element_string = _
    rw [r1]
    simp [renumberFrom_map_element]
  · show (comps.foldl addComponent
      (⟨[], [], [], [], []⟩ : BuildState α)).posmat = _
    rw [r2]
    simp
  · intro hwf
    have hb := foldl_addComponent_bonds comps
      (⟨[], [], [], [], []⟩ : BuildState α) h20 h30 hwf
    show ((comps.foldl addComponent
      (⟨[], [], [], [], []⟩ : BuildState α)).bonds).map _ = _
    rw [hb]
    simp

/-- Witness for `init_from_components_spec`: the positional bond remapping
evaluated on a concrete bonded component followed by a single atom. -/
theorem init_from_components_spec_witness :
    (init_from_components [bondedComp, singleAtomH] none none).bonds.map
        (fun b => (b.atom1_id, b.atom2_id)) =
      remapSpec 0 [bondedComp, singleAtomH] :=
  (init_from_components_spec [bondedComp, singleAtomH] none
    none).2.2.2.2.2.2.1 (by decide)

/-- The loop of `get_conformers` never yields more items than its fuel, the
number of remaining attempts. -/
theorem getConformersLoop_length_le (sp : Spinner) (atoms : List Atom)
    (bonds : List Bond) (mov : Option (List ℕ)) :
    ∀ (fuel : ℕ) (s : SupraMolecule ℝ) (pot : ℝ) (cid nacc k : ℕ),
      (getConformersLoop sp atoms bonds mov fuel s pot cid nacc k).length ≤
        fuel := by
  intro fuel
  induction fuel with
  | zero =>
    intro s pot cid nacc k
    simp [getConformersLoop]
  | succ f ih =>
    intro s pot cid nacc k
    simp only [getConformersLoop]
    split
    · split
      · simp
      · simpa [List.length_cons] using Nat.succ_le_succ (ih _ _ _ _ _)
    · split
      · simp
      · exact le_trans (ih _ _ _ _ _) (Nat.le_succ f)

/-- As long as fewer than `num_conformers` proposals have been accepted, the
loop yields at most the number of missing acceptances. -/
theorem getConformersLoop_length_acc (sp : Spinner) (atoms : List Atom)
    (bonds : List Bond) (mov : Option (List ℕ)) :
    ∀ (fuel : ℕ) (s : SupraMolecule ℝ) (pot : ℝ) (cid nacc k : ℕ),
      nacc < sp.num_conformers →
      (getConformersLoop sp atoms bonds mov fuel s pot cid nacc k).length ≤
        sp.num_conformers - nacc := by
  intro fuel
  induction fuel with
  | zero =>
    intro s pot cid nacc k _
    simp [getConformersLoop]
  | succ f ih =>
    intro s pot cid nacc k hacc
    simp only [getConformersLoop]
    split
    · split
      · rename_i heq
        simp only [List.length_cons, List.length_nil]
        omega
      · rename_i hne
        have hlt : nacc + 1 < sp.num_conformers := by omega
        have h2 := ih
          (mkSupraMolecule atoms bonds (runStep sp s mov k).1.posmat
            (some (cid + 1)) (some (runStep sp s mov k).2.1))
          ((runStep sp s mov k).2.1) (cid + 1) (nacc + 1)
          ((test_move sp.beta pot (runStep sp s mov k).2.1 sp.draws
            (runStep sp s mov k).2.2).2) hlt
        simp only [List.length_cons]
        omega
    · split
      · simp
      · have h2 := ih s pot cid nacc
          ((test_move sp.beta pot (runStep sp s mov k).2.1 sp.draws
            (runStep sp s mov k).2.2).2) hacc
        omega

/-- C3 (amended): the first yielded item of `get_conformers` is always the
starting supramolecule rebuilt with conformer id 0 and its computed
potential, before any acceptance test; afterwards at most
`max_attempts - 1` proposal steps run, so the output is a finite list of at
most `1 + (max_attempts - 1)` items; and provided `num_conformers ≥ 1` the
run stops as soon as `num_conformers` proposals have been accepted, yielding
at most `num_conformers + 1` items in total. -/
theorem get_conformers_spec (sp : Spinner) (s : SupraMolecule ℝ)
    (mov : Option (List ℕ)) :
    ((getConformers sp s mov).head? = some (mkSupraMolecule s.atoms s.bonds
      s.posmat (some 0) (some (sp.potential_function s)))) ∧
    ((getConformers sp s mov).length ≤ 1 + (sp.max_attempts - 1)) ∧
    (1 ≤ sp.num_conformers →
      (getConformers sp s mov).length ≤ sp.num_conformers + 1) := by
  refine ⟨rfl, ?_, ?_⟩
  · show (mkSupraMolecule s.atoms s.bonds s.posmat (some 0)
        (some (sp.potential_function s)) ::
      getConformersLoop sp s.atoms s.bonds mov (sp.max_attempts - 1) s
        (sp.potential_function s) 0 0 0).length ≤ 1 + (sp.max_attempts - 1)
    rw [List.length_cons]
    have := getConformersLoop_length_le sp s.atoms s.bonds mov
      (sp.max_attempts - 1) s (sp.potential_function s) 0 0 0
    omega
  · intro hnum
    show (mkSupraMolecule s.atoms s.bonds s.posmat (some 0)
        (some (sp.potential_function s)) ::
      getConformersLoop sp s.atoms s.bonds mov (sp.max_attempts - 1) s
        (sp.potential_function s) 0 0 0).length ≤ sp.num_conformers + 1
    rw [List.length_cons]
    have := getConformersLoop_length_acc sp s.atoms s.bonds mov
      (sp.max_attempts - 1) s (sp.potential_function s) 0 0 0
      (by omega)
    omega

/-- A spinner with the constant zero potential, `num_conformers = 0`,
`max_attempts = 3`, and the constant draw 1/2, used as counterexample. -/
noncomputable def cexSpinner : Spinner :=
  ⟨1, 1, 0, 3, fun _ => 0, 2, fun _ => 1 / 2⟩

/-- A one atom starting supramolecule at the origin. -/
noncomputable def cexStart : SupraMolecule ℝ :=
  mkSupraMolecule [⟨0, "H", 1, 1, 1⟩] [] [((0 : ℝ), 0, 0)] none none

/-- Under the counterexample spinner every proposal is accepted (the
potential difference is zero and `exp 0 = 1` exceeds the draw 1/2), so the
loop yields one item per unit of fuel. -/
theorem cexSpinner_loop_length :
    ∀ (fuel : ℕ) (s : SupraMolecule ℝ) (cid nacc k : ℕ),
      (getConformersLoop cexSpinner cexStart.atoms cexStart.bonds none fuel s
        0 cid nacc k).length = fuel := by
  intro fuel
  induction fuel with
  | zero =>
    intro s cid nacc k
    rfl
  | succ f ih =>
    intro s cid nacc k
    have hp : ∀ (s2 : SupraMolecule ℝ) (k2 : ℕ),
        (runStep cexSpinner s2 none k2).2.1 = 0 := fun _ _ => rfl
    have hk : ∀ (s2 : SupraMolecule ℝ) (k2 : ℕ),
        (runStep cexSpinner s2 none k2).2.2 = k2 + 9 := fun _ _ => rfl
    have hacc : ∀ k2 : ℕ,
        test_move cexSpinner.beta 0 0 cexSpinner.draws k2 = (true, k2 + 1) := by
      intro k2
      rw [test_move, if_neg (lt_irrefl (0 : ℝ))]
      have hexp : Real.exp (-cexSpinner.beta * ((0 : ℝ) - 0)) >
          cexSpinner.draws k2 := by
        show Real.exp (-(2 : ℝ) * ((0 : ℝ) - 0)) > 1 / 2
        rw [show (-(2 : ℝ) * ((0 : ℝ) - 0)) = 0 by ring, Real.exp_zero]
        norm_num
      rw [decide_eq_true hexp]
    simp only [getConformersLoop, hp, hk, hacc]
    have hnum : ¬ nacc + 1 = cexSpinner.num_conformers := by
      show ¬ nacc + 1 = 0
      omega
    simp only [if_true, if_neg hnum, List.length_cons]
    rw [ih]

/-- Counterexample to C3 as stated: with `num_conformers = 0` the length
check `len(cids_passed) == num_conformers` never fires once a proposal is
accepted, so the run yields 3 items, exceeding `num_conformers + 1 = 1`. -/
theorem get_conformers_claim_counterexample :
    (getConformers cexSpinner cexStart none).length = 3 ∧
      cexSpinner.num_conformers + 1 <
        (getConformers cexSpinner cexStart none).length := by
  have hlist : getConformers cexSpinner cexStart none =
      mkSupraMolecule cexStart.atoms cexStart.bonds cexStart.posmat (some 0)
          (some 0) ::
        getConformersLoop cexSpinner cexStart.atoms cexStart.bonds none 2
          cexStart 0 0 0 0 := rfl
  rw [hlist, List.length_cons, cexSpinner_loop_length]
  exact ⟨rfl, by show 0 + 1 < 2 + 1; omega⟩

/-- A spinner with `num_conformers = 2` for the witness of the amended
claim. -/
noncomputable def witSpinner : Spinner :=
  ⟨1, 1, 2, 3, fun _ => 0, 2, fun _ => 1 / 2⟩

/-- Witness for `get_conformers_spec` at a concrete spinner with
`num_conformers = 2`. -/
theorem get_conformers_spec_witness :
    (getConformers witSpinner cexStart none).length ≤
      witSpinner.num_conformers + 1 :=
  (get_conformers_spec witSpinner cexStart none).2.2 (by norm_num [witSpinner])

/-- One uniform draw from the stream with the advanced counter. -/
noncomputable def drawAt (d : ℕ → ℝ) (k : ℕ) : ℝ × ℕ :=
  (d k, k + 1)

/-- Three consecutive uniform draws from the stream with the advanced
counter (`generator.random(3)`). -/
noncomputable def draw3At (d : ℕ → ℝ) (k : ℕ) : Vec3 ℝ × ℕ :=
  ((d k, d (k + 1), d (k + 2)), k + 3)

/-- The step of the amended claim, with the draws threaded sequentially in
the order the source consumes them: component choice, translation scalar,
translation direction, rotation scalar, rotation axis. -/
noncomputable def runStepSequentialDraws (sp : Spinner) (s : SupraMolecule ℝ)
    (movable : Option (List ℕ)) (k : ℕ) : SupraMolecule ℝ × ℝ × ℕ :=
  let comps := s.get_components
  let movIdx := movableIndices comps movable
  let d0 := drawAt sp.draws k
  let targId := choiceModel d0.1 movIdx
  let d1 := drawAt sp.draws d0.2
  let randT := (d1.1 - 1 / 2) * 2
  let d2 := draw3At sp.draws d1.2
  let randVector := vdiv d2.1 (vnorm d2.1)
  let translation := vsmul (sp.step_size * randT) randVector
  let targ0 := comps.getD targId ⟨[], [], []⟩
  let targ1 := targ0.with_displacement translation
  let d3 := drawAt sp.draws d2.2
  let randR := (d3.1 - 1 / 2) * 2
  let angle := sp.rotation_step_size * randR
  let d4 := draw3At sp.draws d3.2
  let axis := vdiv d4.1 (vnorm randVector)
  let targ2 := rotateAtomsByAngle targ1 angle axis (centroidOf targ1)
  let comps2 := comps.set targId targ2
  let s2 := init_from_components comps2 none none
  (s2, sp.potential_function s2, d4.2)

/-- Modelled from the claim of the specification (not from the source): the
step with the draw order the claim asserts, namely translation direction
first, then translation scalar, then rotation axis, then rotation scalar
(everything else as in the source, including the axis normalization
quirk). -/
noncomputable def runStepClaimOrder (sp : Spinner) (s : SupraMolecule ℝ)
    (movable : Option (List ℕ)) (k : ℕ) : SupraMolecule ℝ × ℝ × ℕ :=
  let comps := s.get_components
  let movIdx := movableIndices comps movable
  let targId := choiceModel (sp.draws k) movIdx
  let rawVec : Vec3 ℝ := (sp.draws (k + 1), sp.draws (k + 2), sp.draws (k + 3))
  let randVector := vdiv rawVec (vnorm rawVec)
  let randT := (sp.draws (k + 4) - 1 / 2) * 2
  let translation := vsmul (sp.step_size * randT) randVector
  let targ0 := comps.getD targId ⟨[], [], []⟩
  let targ1 := targ0.with_displacement translation
  let rawAxis : Vec3 ℝ := (sp.draws (k + 5), sp.draws (k + 6), sp.draws (k + 7))
  let randR := (sp.draws (k + 8) - 1 / 2) * 2
  let angle := sp.rotation_step_size * randR
  let axis := vdiv rawAxis (vnorm randVector)
  let targ2 := rotateAtomsByAngle targ1 angle axis (centroidOf targ1)
  let comps2 := comps.set targId targ2
  let s2 := init_from_components comps2 none none
  (s2, sp.potential_function s2, k + 9)

/-- C8 (amended): one shared stream supplies, in this order per step, the
component choice draw, the translation scalar, the translation direction,
the rotation scalar and the rotation axis (nine draws, advancing the counter
from `k` to `k + 9`), and the acceptance test then consumes the next draw of
the same stream, only in the non downhill case. -/
theorem run_step_draw_order (sp : Spinner) (s : SupraMolecule ℝ)
    (mov : Option (List ℕ)) (k : ℕ) :
    runStep sp s mov k = runStepSequentialDraws sp s mov k ∧
    (runStep sp s mov k).2.2 = k + 9 ∧
    (∀ curr new : ℝ, ¬ new < curr →
      (test_move sp.beta curr new sp.draws (runStep sp s mov k).2.2).2 =
        (k + 9) + 1) := by
  refine ⟨rfl, rfl, ?_⟩
  intro curr new h
  show (test_move sp.beta curr new sp.draws (k + 9)).2 = (k + 9) + 1
  rw [test_move, if_neg h]

/-- Witness for `run_step_draw_order` on concrete potentials for the
acceptance part. -/
theorem run_step_draw_order_witness :
    (test_move cexSpinner.beta 0 0 cexSpinner.draws
      (runStep cexSpinner cexStart none 0).2.2).2 = (0 + 9) + 1 :=
  (run_step_draw_order cexSpinner cexStart none 0).2.2 0 0 (lt_irrefl 0)

/-- The draw stream of the order counterexample. -/
noncomputable def c8Draws : ℕ → ℝ := fun n =>
  if n = 1 then 1 / 2
  else if n = 4 then 1
  else if n = 5 then 1 / 2
  else if n = 8 then 1 / 2
  else 0

/-- The spinner of the order counterexample: unit steps, constant zero
potential, the stream `c8Draws`. -/
noncomputable def c8Spinner : Spinner :=
  ⟨1, 1, 1, 3, fun _ => 0, 2, c8Draws⟩

/-- The choice model on a single movable index always picks it. -/
theorem choiceModel_singleton (u : ℝ) : choiceModel u [0] = 0 := by
  show ([0] : List ℕ).getD ⌊u * (([0] : List ℕ).length : ℝ)⌋₊ 0 = 0
  cases ⌊u * ((([0] : List ℕ).length : ℕ) : ℝ)⌋₊ with
  | zero => rfl
  | succ n => rfl

/-- Any Rodrigues rotation fixes the zero vector. -/
theorem rodrigues_zero (angle : ℝ) (axis : Vec3 ℝ) :
    rodrigues angle axis ((0 : ℝ), (0 : ℝ), (0 : ℝ)) = (0, 0, 0) := by
  simp [rodrigues, vdiv, vadd, vsmul, crossProd]

/-- The centroid of a one atom molecule is its only position row. -/
theorem centroidOf_single (a : Atom) (q : Vec3 ℝ) :
    centroidOf ⟨[a], [], [q]⟩ = q := by
  obtain ⟨q1, q2, q3⟩ := q
  simp [centroidOf, Molecule.get_centroid, vsum, vadd, vsmul,
    show List.range 1 = [0] from rfl]

/-- The movable index set of a single one atom component is the single
index 0. -/
theorem movableIndices_single (a : Atom) (p : Vec3 ℝ) :
    movableIndices [(⟨[a], [], [p]⟩ : Molecule ℝ)] none = [0] := rfl

/-- Evaluation of the source step on a one component, one atom
supramolecule: the rotation about the centroid fixes the single atom, so the
new position is the old one displaced by the translation built from the
scalar at draw `k + 1` and the direction at draws `k + 2 .. k + 4`. -/
theorem runStep_single_atom (sp : Spinner) (a : Atom) (p : Vec3 ℝ)
    (s : SupraMolecule ℝ) (hc : s.components = [⟨[a], [], [p]⟩]) (k : ℕ) :
    (runStep sp s none k).1.posmat =
      [vadd p (vsmul (sp.step_size * ((sp.draws (k + 1) - 1 / 2) * 2))
        (vdiv (sp.draws (k + 2), sp.draws (k + 3), sp.draws (k + 4))
          (vnorm (sp.draws (k + 2), sp.draws (k + 3), sp.draws (k + 4)))))] := by
  simp only [runStep, SupraMolecule.get_components, hc, movableIndices_single,
    choiceModel_singleton, List.getD_cons_zero, Molecule.with_displacement,
    List.map_cons, List.map_nil, centroidOf_single, rotateAtomsByAngle,
    Molecule.with_position_matrix, List.set_cons_zero]
  simp only [show ∀ x : Vec3 ℝ, vsub x x = ((0 : ℝ), (0 : ℝ), (0 : ℝ)) by
    intro x; simp [vsub], rodrigues_zero,
    show ∀ x : Vec3 ℝ, vadd ((0 : ℝ), (0 : ℝ), (0 : ℝ)) x = x by
      intro x; simp [vadd]]
  rfl

/-- Evaluation of the claim order step on the same one atom supramolecule:
the displacement is built from the direction at draws `k + 1 .. k + 3` and
the scalar at draw `k + 4`. -/
theorem runStepClaimOrder_single_atom (sp : Spinner) (a : Atom) (p : Vec3 ℝ)
    (s : SupraMolecule ℝ) (hc : s.components = [⟨[a], [], [p]⟩]) (k : ℕ) :
    (runStepClaimOrder sp s none k).1.posmat =
      [vadd p (vsmul (sp.step_size * ((sp.draws (k + 4) - 1 / 2) * 2))
        (vdiv (sp.draws (k + 1), sp.draws (k + 2), sp.draws (k + 3))
          (vnorm (sp.draws (k + 1), sp.draws (k + 2), sp.draws (k + 3)))))] := by
  simp only [runStepClaimOrder, SupraMolecule.get_components, hc,
    movableIndices_single, choiceModel_singleton, List.getD_cons_zero,
    Molecule.with_displacement, List.map_cons, List.map_nil,
    centroidOf_single, rotateAtomsByAngle, Molecule.with_position_matrix,
    List.set_cons_zero]
  simp only [show ∀ x : Vec3 ℝ, vsub x x = ((0 : ℝ), (0 : ℝ), (0 : ℝ)) by
    intro x; simp [vsub], rodrigues_zero,
    show ∀ x : Vec3 ℝ, vadd ((0 : ℝ), (0 : ℝ), (0 : ℝ)) x = x by
      intro x; simp [vadd]]
  rfl

/-- Counterexample to C8 as stated: on the stream `c8Draws` the source step
leaves the atom at the origin (the translation scalar, drawn first, is
zero), while the claimed order moves it to `(1, 0, 0)`; so the claimed
consumption order (direction before scalar, axis before rotation scalar)
does not match the code. -/
theorem run_step_claim_order_counterexample :
    (runStep c8Spinner cexStart none 0).1.posmat = [((0 : ℝ), 0, 0)] ∧
    (runStepClaimOrder c8Spinner cexStart none 0).1.posmat =
      [((1 : ℝ), 0, 0)] ∧
    runStep c8Spinner cexStart none 0 ≠
      runStepClaimOrder c8Spinner cexStart none 0 := by
  have hc : cexStart.components = [⟨[⟨0, "H", 1, 1, 1⟩], [], [((0 : ℝ), 0, 0)]⟩] := rfl
  have h1 : (runStep c8Spinner cexStart none 0).1.posmat = [((0 : ℝ), 0, 0)] := by
    rw [runStep_single_atom c8Spinner _ _ cexStart hc 0]
    have hdraw : c8Spinner.draws 1 = 1 / 2 := rfl
    rw [hdraw, show c8Spinner.step_size = (1 : ℝ) from rfl]
    norm_num [vadd, vsmul, vdiv]
  have h2 : (runStepClaimOrder c8Spinner cexStart none 0).1.posmat =
      [((1 : ℝ), 0, 0)] := by
    rw [runStepClaimOrder_single_atom c8Spinner _ _ cexStart hc 0]
    have hd1 : c8Spinner.draws 1 = 1 / 2 := rfl
    have hd2 : c8Spinner.draws 2 = 0 := rfl
    have hd3 : c8Spinner.draws 3 = 0 := rfl
    have hd4 : c8Spinner.draws 4 = 1 := rfl
    rw [hd1, hd2, hd3, hd4, show c8Spinner.step_size = (1 : ℝ) from rfl]
    have hnorm : vnorm ((1 / 2 : ℝ), (0 : ℝ), (0 : ℝ)) = 1 / 2 := by
      rw [vnorm, show ((1 / 2 : ℝ) ^ 2 + (0 : ℝ) ^ 2 + (0 : ℝ) ^ 2) =
        (1 / 2 : ℝ) ^ 2 by norm_num, Real.sqrt_sq (by norm_num : (0 : ℝ) ≤ 1 / 2)]
    rw [hnorm]
    norm_num [vadd, vsmul, vdiv]
  refine ⟨h1, h2, ?_⟩
  intro heq
  have : ([((0 : ℝ), 0, 0)] : List (Vec3 ℝ)) = [((1 : ℝ), 0, 0)] := by
    rw [← h1, ← h2, heq]
  norm_num [Prod.ext_iff] at this

end SpinDry
